import Mathlib

/-!
Verification of the rendy GPU-memory allocation and deferred-reclamation
subsystem.

The definitions below are a shallow embedding of the Rust sources:

* src/memory/src/heaps.rs     — Heaps, MemoryType, MemoryHeap, MemoryBlock
* src/core/src/command/fence.rs — fences and wait_for_all_fences
* src/core/src/device.rs      — Device tracker lease and cleanup sweep
* src/core/src/factory.rs     — collect_from_tracker

Machine integers (u64/u32) are modelled as Nat: none of the verified
properties depend on wraparound, and the subtraction sites
(heap.used -= freed, available = size - used) are only exercised under
invariants that make them exact.

The sub-allocators (Dedicated, Arena, Dynamic), the usage-fitness table and
the per-queue destruction machinery live in crate files that are not part
of the sources; those definitions are modelled from the spec and are marked
as such in their doc comments.  The device itself (vkAllocateMemory etc.) is
external; memory grants are modelled as always succeeding.
-/

namespace Rendy

/-- Usage values of the memory, mirroring `UsageValue` from usage.rs
(arms matched in `MemoryType::alloc`). -/
inductive UsageValue
  | data
  | dynamic
  | upload
  | download
deriving DecidableEq, Repr

/-- Memory property flags, kept abstract as a bitmask. -/
abbrev Properties := Nat

/-- Round `o` up to a multiple of `a` (alignment; `a = 0` keeps `o`). -/
def alignUp (o a : Nat) : Nat :=
  if a = 0 then o else (o + a - 1) / a * a

/-- Config for the arena sub-allocator (spec §6: `{chunk_size, max_allocation}`). -/
structure ArenaConfig where
  chunkSize : Nat
  maxAllocation : Nat
deriving DecidableEq, Repr

/-- Config for the dynamic sub-allocator (spec §6: `{chunk_size, max_allocation}`). -/
structure DynamicConfig where
  chunkSize : Nat
  maxAllocation : Nat
deriving DecidableEq, Repr

/-- Block handed out by the dedicated allocator. -/
structure DedicatedBlock where
  size : Nat
deriving DecidableEq, Repr

/-- Modelled from the spec: the Dedicated sub-allocator (allocator crate is not
among the sources).  Spec §4.3: allocates exactly one backing memory object per
request, `free` releases it outright, trivial bookkeeping.  Only the count of
outstanding blocks is state. -/
structure DedicatedAllocator where
  count : Nat
deriving DecidableEq, Repr

/-- Dedicated alloc: one backing object of exactly the requested size;
reserved byte count is the requested size. -/
def DedicatedAllocator.alloc (d : DedicatedAllocator) (size _align : Nat) :
    DedicatedBlock × Nat × DedicatedAllocator :=
  (⟨size⟩, size, ⟨d.count + 1⟩)

/-- Dedicated free: releases the backing object outright. -/
def DedicatedAllocator.free (d : DedicatedAllocator) (b : DedicatedBlock) :
    Nat × DedicatedAllocator :=
  (b.size, ⟨d.count - 1⟩)

/-- Outstanding blocks of the dedicated allocator. -/
def DedicatedAllocator.outstanding (d : DedicatedAllocator) : Nat := d.count

/-- One arena chunk: bump offset and number of live (unfreed) blocks. -/
structure ArenaChunk where
  offset : Nat
  live : Nat
deriving DecidableEq, Repr

/-- Block handed out by the arena allocator; records which chunk it lives in. -/
structure ArenaBlock where
  chunkIdx : Nat
  first : Nat
  last : Nat
deriving DecidableEq, Repr

/-- Modelled from the spec: the Arena sub-allocator (allocator crate is not
among the sources).  Spec §4.3: bump allocation inside fixed-size chunks;
space is reclaimed only when an entire chunk's allocations have all been
freed, in bulk per chunk.  Reclaimed chunk slots become `none` so block
chunk indices stay stable. -/
structure ArenaAllocator where
  config : ArenaConfig
  chunks : List (Option ArenaChunk)
deriving DecidableEq, Repr

/-- Arena `max_allocation()` accessor used by the `MemoryType::alloc` guard. -/
def ArenaAllocator.maxAllocation (ar : ArenaAllocator) : Nat :=
  ar.config.maxAllocation

/-- Arena alloc: bump inside the current (last) chunk when the aligned request
fits, otherwise reserve a fresh chunk of `chunk_size` bytes (that whole chunk
is the reserved byte count reported to the heap).  `none` when the request
cannot fit a chunk at all (unreachable when `max_allocation ≤ chunk_size`). -/
def ArenaAllocator.alloc (ar : ArenaAllocator) (size align : Nat) :
    Option (ArenaBlock × Nat × ArenaAllocator) :=
  match ar.chunks.getLast? with
  | some (some c) =>
    if alignUp c.offset align + size ≤ ar.config.chunkSize then
      some (⟨ar.chunks.length - 1, alignUp c.offset align, alignUp c.offset align + size⟩, 0,
        { ar with chunks := ar.chunks.dropLast ++
            [some ⟨alignUp c.offset align + size, c.live + 1⟩] })
    else if size ≤ ar.config.chunkSize then
      some (⟨ar.chunks.length, 0, size⟩, ar.config.chunkSize,
        { ar with chunks := ar.chunks ++ [some ⟨size, 1⟩] })
    else none
  | _ =>
    if size ≤ ar.config.chunkSize then
      some (⟨ar.chunks.length, 0, size⟩, ar.config.chunkSize,
        { ar with chunks := ar.chunks ++ [some ⟨size, 1⟩] })
    else none

/-- Arena free: decrement the chunk's live count; when the entire chunk's
allocations have been freed the chunk is reclaimed in bulk and its
`chunk_size` bytes are the released byte count. -/
def ArenaAllocator.free (ar : ArenaAllocator) (b : ArenaBlock) :
    Nat × ArenaAllocator :=
  match ar.chunks[b.chunkIdx]? with
  | some (some c) =>
    if c.live ≤ 1 then
      (ar.config.chunkSize, { ar with chunks := ar.chunks.set b.chunkIdx none })
    else
      (0, { ar with chunks := ar.chunks.set b.chunkIdx (some ⟨c.offset, c.live - 1⟩) })
  | _ => (0, ar)

/-- Outstanding blocks of the arena allocator: live blocks over all chunks. -/
def ArenaAllocator.outstanding (ar : ArenaAllocator) : Nat :=
  (ar.chunks.filterMap id).foldl (fun s c => s + c.live) 0

/-- Modelled from the spec: arena `dispose` is fatal if blocks remain
outstanding (spec §4.3).  `true` means the fatal assertion fires. -/
def ArenaAllocator.disposeFatal (ar : ArenaAllocator) : Bool :=
  ar.outstanding != 0

/-- One dynamic chunk: free ranges and number of live (unfreed) blocks. -/
structure DynChunk where
  free : List (Nat × Nat)
  live : Nat
deriving DecidableEq, Repr

/-- Block handed out by the dynamic allocator. -/
structure DynamicBlock where
  chunkIdx : Nat
  first : Nat
  last : Nat
deriving DecidableEq, Repr

/-- Modelled from the spec: the Dynamic sub-allocator (allocator crate is not
among the sources).  Spec §4.3: free-list-based sub-allocation inside larger
chunks, coalescing adjacent free regions, partial free independent of
allocation order.  Reclaimed chunk slots become `none`. -/
structure DynamicAllocator where
  config : DynamicConfig
  chunks : List (Option DynChunk)
deriving DecidableEq, Repr

/-- Dynamic `max_allocation()` accessor used by the `MemoryType::alloc` guard. -/
def DynamicAllocator.maxAllocation (dy : DynamicAllocator) : Nat :=
  dy.config.maxAllocation

/-- Carve the first free range that fits an aligned request out of a free
list, returning the carved range and the remaining free list. -/
def carveRanges (size align : Nat) : List (Nat × Nat) → Option ((Nat × Nat) × List (Nat × Nat))
  | [] => none
  | (a, b) :: rest =>
    if alignUp a align + size ≤ b then
      some ((alignUp a align, alignUp a align + size),
        (if a < alignUp a align then [(a, alignUp a align)] else []) ++
        (if alignUp a align + size < b then [(alignUp a align + size, b)] else []) ++ rest)
    else
      match carveRanges size align rest with
      | none => none
      | some (r, rest') => some (r, (a, b) :: rest')

/-- Insert a freed range back into a free list, coalescing adjacent ranges. -/
def insertCoalesce (r : Nat × Nat) : List (Nat × Nat) → List (Nat × Nat)
  | [] => [r]
  | (a, b) :: rest =>
    if r.2 < a then r :: (a, b) :: rest
    else if r.2 = a then (r.1, b) :: rest
    else if b = r.1 then insertCoalesce (a, r.2) rest
    else (a, b) :: insertCoalesce r rest

/-- First-fit search over chunk slots: returns the chunk index, the carved
range and the updated slots. -/
def dynFirstFit (size align : Nat) :
    List (Option DynChunk) → Option (Nat × (Nat × Nat) × List (Option DynChunk))
  | [] => none
  | none :: rest =>
    match dynFirstFit size align rest with
    | none => none
    | some (i, r, rest') => some (i + 1, r, none :: rest')
  | some c :: rest =>
    match carveRanges size align c.free with
    | some (r, free') => some (0, r, some ⟨free', c.live + 1⟩ :: rest)
    | none =>
      match dynFirstFit size align rest with
      | none => none
      | some (i, r, rest') => some (i + 1, r, some c :: rest')

/-- Dynamic alloc: first-fit inside existing chunks (reserved byte count 0),
otherwise reserve a fresh chunk of `chunk_size` bytes. -/
def DynamicAllocator.alloc (dy : DynamicAllocator) (size align : Nat) :
    Option (DynamicBlock × Nat × DynamicAllocator) :=
  match dynFirstFit size align dy.chunks with
  | some (i, r, chunks') => some (⟨i, r.1, r.2⟩, 0, { dy with chunks := chunks' })
  | none =>
    if size ≤ dy.config.chunkSize then
      some (⟨dy.chunks.length, 0, size⟩, dy.config.chunkSize,
        { dy with chunks := dy.chunks ++
            [some ⟨if size < dy.config.chunkSize then [(size, dy.config.chunkSize)] else [], 1⟩] })
    else none

/-- Dynamic free: return the range to the chunk's free list with coalescing;
when the entire chunk's allocations have been freed the chunk is reclaimed
and its `chunk_size` bytes are the released byte count. -/
def DynamicAllocator.free (dy : DynamicAllocator) (b : DynamicBlock) :
    Nat × DynamicAllocator :=
  match dy.chunks[b.chunkIdx]? with
  | some (some c) =>
    if c.live ≤ 1 then
      (dy.config.chunkSize, { dy with chunks := dy.chunks.set b.chunkIdx none })
    else
      (0, { dy with
        chunks := dy.chunks.set b.chunkIdx (some ⟨insertCoalesce (b.first, b.last) c.free, c.live - 1⟩) })
  | _ => (0, dy)

/-- Outstanding blocks of the dynamic allocator. -/
def DynamicAllocator.outstanding (dy : DynamicAllocator) : Nat :=
  (dy.chunks.filterMap id).foldl (fun s c => s + c.live) 0

/-- The `BlockFlavor` tagged variant from heaps.rs. -/
inductive BlockFlavor
  | dedicated (b : DedicatedBlock)
  | arena (b : ArenaBlock)
  | dynamic (b : DynamicBlock)
deriving DecidableEq, Repr

/-- Flavor tag of a block, for stating dispatch facts. -/
def BlockFlavor.isArena : BlockFlavor → Bool
  | .arena _ => true
  | _ => false

/-- Flavor tag of a block, for stating dispatch facts. -/
def BlockFlavor.isDynamic : BlockFlavor → Bool
  | .dynamic _ => true
  | _ => false

/-- Flavor tag of a block, for stating dispatch facts. -/
def BlockFlavor.isDedicated : BlockFlavor → Bool
  | .dedicated _ => true
  | _ => false

/-- `MemoryType` from heaps.rs: one heap reference plus the sub-allocators;
`arena`/`dynamic` are optional per the construction-time config. -/
structure MemoryType where
  heapIndex : Nat
  properties : Properties
  dedicated : DedicatedAllocator
  arena : Option ArenaAllocator
  dynamic : Option DynamicAllocator
deriving DecidableEq, Repr

/-- `MemoryType::alloc` dispatch from heaps.rs: Upload/Download with an arena
present and `size <= arena.max_allocation()` go to the arena; Dynamic/Data
with a dynamic allocator present and `size <= dynamic.max_allocation()` go to
the dynamic allocator; every other case goes to the dedicated allocator.
Device memory grants are modelled as always succeeding, so the only `none`
is a sub-allocator unable to fit the request in a chunk (unreachable when
`max_allocation ≤ chunk_size`). -/
def MemoryType.alloc (mt : MemoryType) (usage : UsageValue) (size align : Nat) :
    Option (BlockFlavor × Nat × MemoryType) :=
  match usage, mt.arena, mt.dynamic with
  | .upload, some ar, _ | .download, some ar, _ =>
    if size ≤ ar.maxAllocation then
      (ar.alloc size align).map fun p =>
        (.arena p.1, p.2.1, { mt with arena := some p.2.2 })
    else
      some (.dedicated (mt.dedicated.alloc size align).1,
        (mt.dedicated.alloc size align).2.1,
        { mt with dedicated := (mt.dedicated.alloc size align).2.2 })
  | .dynamic, _, some dy | .data, _, some dy =>
    if size ≤ dy.maxAllocation then
      (dy.alloc size align).map fun p =>
        (.dynamic p.1, p.2.1, { mt with dynamic := some p.2.2 })
    else
      some (.dedicated (mt.dedicated.alloc size align).1,
        (mt.dedicated.alloc size align).2.1,
        { mt with dedicated := (mt.dedicated.alloc size align).2.2 })
  | _, _, _ =>
    some (.dedicated (mt.dedicated.alloc size align).1,
      (mt.dedicated.alloc size align).2.1,
      { mt with dedicated := (mt.dedicated.alloc size align).2.2 })

/-- `MemoryType::free` dispatch from heaps.rs.  The arena and dynamic arms
unwrap the optional allocator; `none` models that unwrap panicking. -/
def MemoryType.free (mt : MemoryType) (b : BlockFlavor) : Option (Nat × MemoryType) :=
  match b with
  | .dedicated db =>
    some ((mt.dedicated.free db).1, { mt with dedicated := (mt.dedicated.free db).2 })
  | .arena ab =>
    match mt.arena with
    | none => none
    | some ar => some ((ar.free ab).1, { mt with arena := some (ar.free ab).2 })
  | .dynamic db =>
    match mt.dynamic with
    | none => none
    | some dy => some ((dy.free db).1, { mt with dynamic := some (dy.free db).2 })

/-- Total outstanding blocks over all three sub-allocators of a type. -/
def MemoryType.outstanding (mt : MemoryType) : Nat :=
  mt.dedicated.outstanding +
    (match mt.arena with | some ar => ar.outstanding | none => 0) +
    (match mt.dynamic with | some dy => dy.outstanding | none => 0)

/-- `MemoryType::dispose` from heaps.rs: it disposes only the arena allocator
(`if let Some(arena) = self.arena { arena.dispose(device); }`); the dedicated
and dynamic allocators are dropped without any check.  `true` means the fatal
assertion fires. -/
def MemoryType.disposeFatal (mt : MemoryType) : Bool :=
  match mt.arena with
  | some ar => ar.disposeFatal
  | none => false

/-- `MemoryHeap` from heaps.rs. -/
structure MemoryHeap where
  size : Nat
  used : Nat
deriving DecidableEq, Repr

/-- `MemoryHeap::available`: `size - used` (u64 subtraction; under the
`used ≤ size` invariant it never underflows). -/
def MemoryHeap.available (h : MemoryHeap) : Nat := h.size - h.used

/-- `MemoryBlock` from heaps.rs: flavor plus owning memory type index. -/
structure MemoryBlock where
  block : BlockFlavor
  memoryIndex : Nat
deriving DecidableEq, Repr

/-- The `Heaps` registry from heaps.rs. -/
structure Heaps where
  types : List MemoryType
  heaps : List MemoryHeap
deriving DecidableEq, Repr

/-- `MemoryError` subset produced by `Heaps::allocate` (errors.rs is not in
the sources; the two variants come from the spec error taxonomy and the
constructor calls visible in heaps.rs). -/
inductive MemoryError
  | noSuitableMemory (mask : Nat) (usage : UsageValue)
  | heapsExhausted
deriving DecidableEq, Repr

/-- Modelled from the spec: the usage-fitness table of usage.rs is not among
the sources, so `memory_fitness` is passed as an abstract function from the
usage value and the type's property flags to an optional score. -/
abbrev FitnessFn := UsageValue → Properties → Option Nat

/-- The `suitable_types` scan of `Heaps::allocate`: enumerate the types, keep
those whose bit is set in `mask`, and pair each with its fitness when the
usage defines one. -/
def suitableTypes (h : Heaps) (fitness : FitnessFn) (mask : Nat) (usage : UsageValue) :
    List (Nat × MemoryType × Nat) :=
  (h.types.enum.filter fun p => mask.testBit p.1).filterMap fun p =>
    (fitness usage p.2.properties).map fun f => (p.1, p.2, f)

/-- Rust `Iterator::max_by_key`: among several equally maximal elements the
last one is returned. -/
def maxByKeyLast (key : α → Nat) (l : List α) : Option α :=
  l.foldl (fun acc a =>
    match acc with
    | none => some a
    | some b => if key a < key b then some b else some a) none

/-- The capacity filter of `Heaps::allocate`:
`self.heaps[mt.heap_index].available() > size + align`.  `Heaps::new` asserts
`heap_index < heaps.len()`, so the default heap (available 0, which the
filter rejects) is never consulted on well-formed registries. -/
def capacityFilter (h : Heaps) (size align : Nat) (p : Nat × MemoryType × Nat) : Bool :=
  size + align < (h.heaps.getD p.2.1.heapIndex ⟨0, 0⟩).available

/-- `Heaps::allocate_from` from heaps.rs: check the heap has `size` available,
delegate to the type's `alloc`, and add the reserved byte count to the heap's
`used`.  The outer `none` models the panics (index out of bounds or a
sub-allocator unable to fit a chunk), both unreachable from `allocate` on
well-formed registries. -/
def Heaps.allocateFrom (h : Heaps) (memoryIndex : Nat) (usage : UsageValue)
    (size align : Nat) : Option (Heaps × Except MemoryError MemoryBlock) :=
  match h.types[memoryIndex]? with
  | none => none
  | some mt =>
    match h.heaps[mt.heapIndex]? with
    | none => none
    | some heap =>
      if heap.available < size then
        some (h, .error .heapsExhausted)
      else
        (mt.alloc usage size align).map fun p =>
          ({ types := h.types.set memoryIndex p.2.2,
             heaps := h.heaps.set mt.heapIndex ⟨heap.size, heap.used + p.2.1⟩ },
           .ok ⟨p.1, memoryIndex⟩)

/-- `Heaps::allocate` from heaps.rs: scan for suitable types (mask bit set and
fitness defined), error `NoSuitableMemory` when none; filter by heap
capacity and take the maximal fitness (`max_by_key`), error `HeapsExhausted`
when none survives; delegate to `allocate_from` for the selected index. -/
def Heaps.allocate (h : Heaps) (fitness : FitnessFn) (mask : Nat)
    (usage : UsageValue) (size align : Nat) :
    Option (Heaps × Except MemoryError MemoryBlock) :=
  let suitable := suitableTypes h fitness mask usage
  if suitable.isEmpty then
    some (h, .error (.noSuitableMemory mask usage))
  else
    match maxByKeyLast (fun p => p.2.2) (suitable.filter (capacityFilter h size align)) with
    | none => some (h, .error .heapsExhausted)
    | some p => h.allocateFrom p.1 usage size align

/-- `Heaps::free` from heaps.rs: look the type up by the block's
`memory_index`, delegate to the matching sub-allocator's `free`, and subtract
the released byte count from the heap's `used`.  `none` models the panics
(type or heap index out of bounds, or the unwrap inside `MemoryType::free`). -/
def Heaps.free (h : Heaps) (b : MemoryBlock) : Option Heaps :=
  match h.types[b.memoryIndex]? with
  | none => none
  | some mt =>
    match h.heaps[mt.heapIndex]? with
    | none => none
    | some heap =>
      (mt.free b.block).map fun p =>
        { types := h.types.set b.memoryIndex p.2,
          heaps := h.heaps.set mt.heapIndex ⟨heap.size, heap.used - p.1⟩ }

/-- `Heaps::dispose` from heaps.rs: dispose every type.  `true` means some
type's dispose hits a fatal assertion. -/
def Heaps.disposeFatal (h : Heaps) : Bool :=
  h.types.any MemoryType.disposeFatal

/-- Total outstanding blocks over the whole registry. -/
def Heaps.outstanding (h : Heaps) : Nat :=
  h.types.foldl (fun s mt => s + mt.outstanding) 0

/-- `ArmedFence` from fence.rs: submitted fence carrying queue id and epoch.
Raw Vulkan handles and queue ids are modelled as Nat. -/
structure ArmedFence where
  raw : Nat
  queue : Nat
  epoch : Nat
deriving DecidableEq, Repr

/-- `ReadyFence` from fence.rs: fence observed signalled, keeping its queue
id and epoch. -/
structure ReadyFence where
  raw : Nat
  queue : Nat
  epoch : Nat
deriving DecidableEq, Repr

/-- The Vulkan results `wait_for_fences` can report (the other values hit the
`unreachable!` arm in fence.rs). -/
inductive VkWaitResult
  | success
  | timeout
  | errorOutOfHostMemory
  | errorOutOfDeviceMemory
  | errorDeviceLost
deriving DecidableEq, Repr

/-- `OomError` from the core crate. -/
inductive OomError
  | outOfHostMemory
  | outOfDeviceMemory
deriving DecidableEq, Repr

/-- `DeviceLostOrOomError` from the core crate. -/
inductive DeviceLostOrOomError
  | oomError (e : OomError)
  | deviceLost
deriving DecidableEq, Repr

/-- Promote an armed fence to a ready one, as the `Success` arm of
`wait_for_all_fences` does (fields preserved). -/
def ArmedFence.toReady (f : ArmedFence) : ReadyFence :=
  ⟨f.raw, f.queue, f.epoch⟩

/-- `wait_for_all_fences` from fence.rs, with the device's
`wait_for_fences(..., wait_all = 1, timeout)` outcome as an input:
`Success` maps every fence to `ReadyFence` keeping raw/queue/epoch,
`Timeout` hands the original armed fences back, and the three error results
become the distinct `DeviceLostOrOomError` values.  `Sum.inl` is the inner
`Ok` (ready set), `Sum.inr` the inner `Err` (armed set). -/
def waitForAllFences (devResult : VkWaitResult) (fences : List ArmedFence) :
    Except DeviceLostOrOomError (List ReadyFence ⊕ List ArmedFence) :=
  match devResult with
  | .success => .ok (.inl (fences.map ArmedFence.toReady))
  | .timeout => .ok (.inr fences)
  | .errorOutOfHostMemory => .error (.oomError .outOfHostMemory)
  | .errorOutOfDeviceMemory => .error (.oomError .outOfDeviceMemory)
  | .errorDeviceLost => .error .deviceLost

/-- `DeviceTracker` from device.rs (the raw device handle as Nat). -/
structure DeviceTracker where
  device : Nat
deriving DecidableEq, Repr

/-- The parts of `Device` from device.rs that the tracker-lease and cleanup
protocol touches: the terminal of escaped resources (object ids), the queues
(families flattened, as `cleanup` does with `flat_map`) each with its list of
tracked batches, and the optional tracker slot. -/
structure DeviceState where
  terminal : List Nat
  queues : List (List (List Nat))
  tracker : Option DeviceTracker
deriving DecidableEq, Repr

/-- `Device::take_tracker`: `self.tracker.take()` — hands the tracker out and
leaves the slot empty; a second take without a return yields `none`. -/
def DeviceState.takeTracker (d : DeviceState) : Option DeviceTracker × DeviceState :=
  (d.tracker, { d with tracker := none })

/-- `Device::return_tracker`: put the tracker back. -/
def DeviceState.returnTracker (d : DeviceState) (t : DeviceTracker) : DeviceState :=
  { d with tracker := some t }

/-- `Device::cleanup` from device.rs: when the tracker slot is occupied, drain
the terminal into one batch and push a copy onto every queue's track list;
otherwise warn (`Bool` result `true`) and touch nothing. -/
def DeviceState.cleanup (d : DeviceState) : DeviceState × Bool :=
  if d.tracker.isSome then
    ({ d with terminal := [],
              queues := d.queues.map fun q => d.terminal :: q }, false)
  else
    (d, true)

/-- One submission on a queue: its epoch and whether its fence has been
observed Ready (fences progress Armed → Ready only). -/
structure Submission where
  epoch : Nat
  ready : Bool
deriving DecidableEq, Repr

/-- Per-queue reclamation state: the monotonic epoch counter and the
submissions made so far. -/
structure QueueState where
  epoch : Nat
  subs : List Submission
deriving DecidableEq, Repr

/-- A graveyard batch as stamped at sweep time: the per-queue epoch snapshot,
which queues still hold their copy, and whether it was physically destroyed. -/
structure Batch where
  stamp : List Nat
  holders : List Bool
  destroyed : Bool
deriving DecidableEq, Repr

/-- Modelled from the spec: the whole epoch/fence reclamation pipeline (the
`command::Family` queue code that retires and destroys batches is not among
the sources; `GlobalTracker` in tracker.rs is an empty shell and
`Factory::collect_from_tracker` / `Device::cleanup` only hand one copy of the
batch to every queue).  Queues carry epochs and fence-tagged submissions;
batches are stamped with every queue's current epoch at sweep time. -/
structure TrackerState where
  queues : List QueueState
  batches : List Batch
deriving DecidableEq, Repr

/-- Update the element at an index, when present. -/
def updAt (l : List α) (i : Nat) (f : α → α) : List α :=
  match l[i]? with
  | some a => l.set i (f a)
  | none => l

/-- Default queue used only to state out-of-range lookups. -/
def emptyQueue : QueueState := ⟨0, []⟩

/-- A queue may retire its copy of a batch only when every submission at or
before the epoch stamped on the batch for that queue has a Ready fence. -/
def retireCond (s : TrackerState) (q : Nat) (bt : Batch) : Prop :=
  ∀ sub ∈ (s.queues.getD q emptyQueue).subs, sub.epoch ≤ bt.stamp.getD q 0 → sub.ready = true

instance (s : TrackerState) (q : Nat) (bt : Batch) : Decidable (retireCond s q bt) := by
  unfold retireCond; infer_instance

/-- Submitting on queue `q`: the epoch increment and the arming of the fence
with that epoch happen as one atomic step (spec §5). -/
def submitOn (s : TrackerState) (q : Nat) : TrackerState :=
  { s with queues := updAt s.queues q fun qs =>
      ⟨qs.epoch + 1, ⟨qs.epoch + 1, false⟩ :: qs.subs⟩ }

/-- Fence observation: submission `i` on queue `q` is seen Ready. -/
def signalOn (s : TrackerState) (q i : Nat) : TrackerState :=
  { s with queues := updAt s.queues q fun qs =>
      { qs with subs := updAt qs.subs i fun sub => ⟨sub.epoch, true⟩ } }

/-- The maintenance sweep: stamp the accumulated batch with the current epoch
of every queue and hand one copy to each queue (mirroring
`Device::cleanup` / `Factory::collect_from_tracker`, which push the batch to
every queue of every family). -/
def sweepNew (s : TrackerState) : TrackerState :=
  { s with batches := s.batches ++
      [⟨s.queues.map QueueState.epoch, s.queues.map fun _ => true, false⟩] }

/-- Queue `q` drops its copy of batch `b` (allowed only under `retireCond`). -/
def retireOn (s : TrackerState) (q b : Nat) : TrackerState :=
  { s with batches := updAt s.batches b fun bt =>
      { bt with holders := bt.holders.set q false } }

/-- Physical destruction of batch `b` (allowed only once no queue holds a
copy — the `Arc` drops only after every queue released its clone). -/
def destroyOn (s : TrackerState) (b : Nat) : TrackerState :=
  { s with batches := updAt s.batches b fun bt => { bt with destroyed := true } }

/-- The reclamation protocol's transition relation. -/
inductive TrackStep : TrackerState → TrackerState → Prop
  | submit (s : TrackerState) (q : Nat) : TrackStep s (submitOn s q)
  | signal (s : TrackerState) (q i : Nat) : TrackStep s (signalOn s q i)
  | sweep (s : TrackerState) : TrackStep s (sweepNew s)
  | retire (s : TrackerState) (q b : Nat) (bt : Batch)
      (hb : s.batches[b]? = some bt) (hq : q < s.queues.length)
      (hcond : retireCond s q bt) : TrackStep s (retireOn s q b)
  | destroy (s : TrackerState) (b : Nat) (bt : Batch)
      (hb : s.batches[b]? = some bt)
      (hall : ∀ x ∈ bt.holders, x = false) : TrackStep s (destroyOn s b)

/-- Initial state: `n` queues at epoch 0 with no submissions, no batches. -/
def initTracker (n : Nat) : TrackerState :=
  ⟨List.replicate n emptyQueue, []⟩

/-- States reachable by the reclamation protocol. -/
inductive TrackReachable (n : Nat) : TrackerState → Prop
  | init : TrackReachable n (initTracker n)
  | step {s s' : TrackerState} : TrackReachable n s → TrackStep s s' → TrackReachable n s'

/-- A sample memory type with both optional sub-allocators configured
(chunk size 8, max allocation 4) over heap 0. -/
def mtSample : MemoryType :=
  { heapIndex := 0, properties := 1,
    dedicated := ⟨0⟩,
    arena := some ⟨⟨8, 4⟩, []⟩,
    dynamic := some ⟨⟨8, 4⟩, []⟩ }

/-- Claim C3: for a memory type, `MemoryType::alloc` serves Upload/Download
requests with an arena present and `size ≤ arena.max_allocation` from the
Arena allocator, Dynamic/Data requests with a dynamic allocator present and
`size ≤ dynamic.max_allocation` from the Dynamic allocator, and every other
case from the Dedicated allocator. -/
theorem memoryType_alloc_dispatch (mt : MemoryType) (usage : UsageValue)
    (size align : Nat) (b : BlockFlavor) (r : Nat) (mt' : MemoryType)
    (h : mt.alloc usage size align = some (b, r, mt')) :
    (b.isArena = true ↔
      (usage = .upload ∨ usage = .download) ∧
        ∃ ar, mt.arena = some ar ∧ size ≤ ar.maxAllocation) ∧
    (b.isDynamic = true ↔
      (usage = .dynamic ∨ usage = .data) ∧
        ∃ dy, mt.dynamic = some dy ∧ size ≤ dy.maxAllocation) ∧
    (b.isDedicated = true ↔
      (¬((usage = .upload ∨ usage = .download) ∧
          ∃ ar, mt.arena = some ar ∧ size ≤ ar.maxAllocation) ∧
       ¬((usage = .dynamic ∨ usage = .data) ∧
          ∃ dy, mt.dynamic = some dy ∧ size ≤ dy.maxAllocation))) := by
  cases usage with
  | upload =>
    cases harena : mt.arena with
    | none =>
      simp only [MemoryType.alloc, harena] at h
      cases h
      simp [BlockFlavor.isArena, BlockFlavor.isDynamic, BlockFlavor.isDedicated, harena]
    | some ar =>
      simp only [MemoryType.alloc, harena] at h
      by_cases hle : size ≤ ar.maxAllocation
      · rw [if_pos hle] at h
        cases hall : ar.alloc size align with
        | none => rw [hall] at h; cases h
        | some p =>
          rw [hall] at h
          cases h
          simp [BlockFlavor.isArena, BlockFlavor.isDynamic, BlockFlavor.isDedicated, harena, hle]
      · rw [if_neg hle] at h
        cases h
        simp [BlockFlavor.isArena, BlockFlavor.isDynamic, BlockFlavor.isDedicated, harena, hle]
  | download =>
    cases harena : mt.arena with
    | none =>
      simp only [MemoryType.alloc, harena] at h
      cases h
      simp [BlockFlavor.isArena, BlockFlavor.isDynamic, BlockFlavor.isDedicated, harena]
    | some ar =>
      simp only [MemoryType.alloc, harena] at h
      by_cases hle : size ≤ ar.maxAllocation
      · rw [if_pos hle] at h
        cases hall : ar.alloc size align with
        | none => rw [hall] at h; cases h
        | some p =>
          rw [hall] at h
          cases h
          simp [BlockFlavor.isArena, BlockFlavor.isDynamic, BlockFlavor.isDedicated, harena, hle]
      · rw [if_neg hle] at h
        cases h
        simp [BlockFlavor.isArena, BlockFlavor.isDynamic, BlockFlavor.isDedicated, harena, hle]
  | dynamic =>
    cases hdyn : mt.dynamic with
    | none =>
      simp only [MemoryType.alloc, hdyn] at h
      cases h
      simp [BlockFlavor.isArena, BlockFlavor.isDynamic, BlockFlavor.isDedicated, hdyn]
    | some dy =>
      simp only [MemoryType.alloc, hdyn] at h
      by_cases hle : size ≤ dy.maxAllocation
      · rw [if_pos hle] at h
        cases hall : dy.alloc size align with
        | none => rw [hall] at h; cases h
        | some p =>
          rw [hall] at h
          cases h
          simp [BlockFlavor.isArena, BlockFlavor.isDynamic, BlockFlavor.isDedicated, hdyn, hle]
      · rw [if_neg hle] at h
        cases h
        simp [BlockFlavor.isArena, BlockFlavor.isDynamic, BlockFlavor.isDedicated, hdyn, hle]
  | data =>
    cases hdyn : mt.dynamic with
    | none =>
      simp only [MemoryType.alloc, hdyn] at h
      cases h
      simp [BlockFlavor.isArena, BlockFlavor.isDynamic, BlockFlavor.isDedicated, hdyn]
    | some dy =>
      simp only [MemoryType.alloc, hdyn] at h
      by_cases hle : size ≤ dy.maxAllocation
      · rw [if_pos hle] at h
        cases hall : dy.alloc size align with
        | none => rw [hall] at h; cases h
        | some p =>
          rw [hall] at h
          cases h
          simp [BlockFlavor.isArena, BlockFlavor.isDynamic, BlockFlavor.isDedicated, hdyn, hle]
      · rw [if_neg hle] at h
        cases h
        simp [BlockFlavor.isArena, BlockFlavor.isDynamic, BlockFlavor.isDedicated, hdyn, hle]

/-- Witness for C3: on a concrete type (arena chunk 8 / max 4), an Upload
request of size 2 is served by the Arena allocator. -/
theorem memoryType_alloc_dispatch_witness :
    (BlockFlavor.arena ⟨0, 0, 2⟩).isArena = true :=
  (memoryType_alloc_dispatch mtSample .upload 2 0 (.arena ⟨0, 0, 2⟩) 8
      { mtSample with arena := some ⟨⟨8, 4⟩, [some ⟨2, 1⟩]⟩ } (by decide)).1.mpr
    (by exact ⟨Or.inl rfl, ⟨⟨8, 4⟩, []⟩, rfl, by decide⟩)

/-- Claim C7: with All semantics the Ready set (each fence keeping its queue
id and epoch) comes back only on device Success, which by the device's
`wait_for_fences(wait_all = 1)` contract means every input fence was
signalled within the timeout; Timeout returns the original armed fences
completely unmodified; device-loss and the two out-of-memory results are
surfaced as distinct errors, never as a timeout. -/
theorem waitForAllFences_spec (signalled : Nat → Bool) (devResult : VkWaitResult)
    (fences : List ArmedFence)
    (hdev : devResult = .success → ∀ f ∈ fences, signalled f.raw = true) :
    (∀ readies, waitForAllFences devResult fences = .ok (.inl readies) →
        devResult = .success ∧ readies = fences.map ArmedFence.toReady ∧
        (∀ f ∈ fences, signalled f.raw = true) ∧
        (∀ i : Nat, readies[i]? = (fences[i]?).map ArmedFence.toReady)) ∧
    (waitForAllFences devResult fences = .ok (.inr fences) ↔
        devResult = .timeout) ∧
    (∀ armed, waitForAllFences devResult fences = .ok (.inr armed) → armed = fences) ∧
    (waitForAllFences devResult fences = .error .deviceLost ↔
        devResult = .errorDeviceLost) ∧
    (waitForAllFences devResult fences = .error (.oomError .outOfHostMemory) ↔
        devResult = .errorOutOfHostMemory) ∧
    (waitForAllFences devResult fences = .error (.oomError .outOfDeviceMemory) ↔
        devResult = .errorOutOfDeviceMemory) := by
  cases devResult <;>
    simp_all [waitForAllFences, List.getElem?_map]

/-- Witness for C7 on concrete data: one armed fence on queue 3 at epoch 5,
device reports Success; the ready set keeps queue and epoch. -/
theorem waitForAllFences_spec_witness :
    VkWaitResult.success = VkWaitResult.success ∧
      [ReadyFence.mk 7 3 5] = [ArmedFence.mk 7 3 5].map ArmedFence.toReady ∧
      (∀ f ∈ [ArmedFence.mk 7 3 5], (fun _ => true) f.raw = true) ∧
      (∀ i : Nat, [ReadyFence.mk 7 3 5][i]? = ([ArmedFence.mk 7 3 5][i]?).map ArmedFence.toReady) :=
  (waitForAllFences_spec (fun _ => true) .success [⟨7, 3, 5⟩]
      (fun _ _ _ => rfl)).1 [⟨7, 3, 5⟩] rfl

/-- Claim C9: the device tracker is an exclusive lease — after a take, a
second take without a return in between yields `none` (the usage error is
reported to the caller), and a cleanup sweep while the tracker is out is
reported as a warning and hands no resources to the queues (device state,
queues included, is untouched). -/
theorem tracker_lease_exclusive (d : DeviceState) (t : DeviceTracker)
    (h : d.tracker = some t) :
    (d.takeTracker = (some t, { d with tracker := none })) ∧
    (d.takeTracker.2.takeTracker.1 = none) ∧
    (d.takeTracker.2.cleanup = (d.takeTracker.2, true)) ∧
    (d.takeTracker.2.cleanup.1.queues = d.queues) := by
  simp [DeviceState.takeTracker, DeviceState.cleanup, h]

/-- Witness for C9 on a concrete device state holding one escaped object and
two queues. -/
theorem tracker_lease_exclusive_witness :
    (DeviceState.takeTracker ⟨[4], [[], []], some ⟨1⟩⟩ =
      (some ⟨1⟩, ⟨[4], [[], []], none⟩)) ∧
    ((DeviceState.takeTracker ⟨[4], [[], []], some ⟨1⟩⟩).2.takeTracker.1 = none) ∧
    ((DeviceState.takeTracker ⟨[4], [[], []], some ⟨1⟩⟩).2.cleanup =
      ((DeviceState.takeTracker ⟨[4], [[], []], some ⟨1⟩⟩).2, true)) ∧
    ((DeviceState.takeTracker ⟨[4], [[], []], some ⟨1⟩⟩).2.cleanup.1.queues = [[], []]) :=
  tracker_lease_exclusive ⟨[4], [[], []], some ⟨1⟩⟩ ⟨1⟩ rfl

/-- The fold underlying `maxByKeyLast`, with an explicit accumulator. -/
def maxAccum (key : α → Nat) (acc : Option α) (l : List α) : Option α :=
  l.foldl (fun acc a =>
    match acc with
    | none => some a
    | some b => if key a < key b then some b else some a) acc

theorem maxByKeyLast_eq_maxAccum (key : α → Nat) (l : List α) :
    maxByKeyLast key l = maxAccum key none l := rfl

theorem maxAccum_ne_none (key : α → Nat) (b : α) (l : List α) :
    maxAccum key (some b) l ≠ none := by
  induction l generalizing b with
  | nil => simp [maxAccum]
  | cons a l ih =>
    show maxAccum key (if key a < key b then some b else some a) l ≠ none
    split <;> apply ih

theorem maxByKeyLast_eq_none (key : α → Nat) (l : List α) :
    maxByKeyLast key l = none ↔ l = [] := by
  cases l with
  | nil => simp [maxByKeyLast, maxAccum]
  | cons a l =>
    simp only [maxByKeyLast_eq_maxAccum]
    constructor
    · intro h
      exact absurd h (maxAccum_ne_none key a l)
    · intro h
      cases h

theorem maxAccum_lastMax (key : α → Nat) (l : List α) :
    ∀ b x, maxAccum key (some b) l = some x →
      (x = b ∧ ∀ y ∈ l, key y < key b) ∨
      (∃ l1 l2, l = l1 ++ x :: l2 ∧ key b ≤ key x ∧
        (∀ y ∈ l1, key y ≤ key x) ∧ (∀ y ∈ l2, key y < key x)) := by
  induction l with
  | nil =>
    intro b x h
    left
    simp only [maxAccum, List.foldl_nil] at h
    cases h
    exact ⟨rfl, by simp⟩
  | cons a l ih =>
    intro b x h
    replace h : maxAccum key (if key a < key b then some b else some a) l = some x := h
    by_cases hab : key a < key b
    · rw [if_pos hab] at h
      rcases ih b x h with ⟨rfl, hlt⟩ | ⟨l1, l2, rfl, hbx, h1, h2⟩
      · left
        exact ⟨rfl, by simpa [hab] using hlt⟩
      · right
        exact ⟨a :: l1, l2, rfl, hbx,
          by simpa [le_of_lt (lt_of_lt_of_le hab hbx)] using h1, h2⟩
    · rw [if_neg hab] at h
      push_neg at hab
      rcases ih a x h with ⟨rfl, hlt⟩ | ⟨l1, l2, rfl, hax, h1, h2⟩
      · right
        exact ⟨[], l, rfl, hab, by simp, hlt⟩
      · right
        exact ⟨a :: l1, l2, rfl, le_trans hab hax,
          by simpa [hax] using h1, h2⟩

/-- Rust `max_by_key` returns an element whose key is maximal and which is
the last such element: everything before it has key at most its key, and
everything after it has strictly smaller key. -/
theorem maxByKeyLast_lastMax (key : α → Nat) (l : List α) (x : α)
    (h : maxByKeyLast key l = some x) :
    ∃ l1 l2, l = l1 ++ x :: l2 ∧
      (∀ y ∈ l1, key y ≤ key x) ∧ (∀ y ∈ l2, key y < key x) := by
  cases l with
  | nil => cases h
  | cons a l =>
    replace h : maxAccum key (some a) l = some x := h
    rcases maxAccum_lastMax key l a x h with ⟨rfl, hlt⟩ | ⟨l1, l2, rfl, hax, h1, h2⟩
    · exact ⟨[], l, rfl, by simp, hlt⟩
    · exact ⟨a :: l1, l2, rfl, by simpa [hax] using h1, h2⟩

theorem maxByKeyLast_mem (key : α → Nat) (l : List α) (x : α)
    (h : maxByKeyLast key l = some x) : x ∈ l := by
  rcases maxByKeyLast_lastMax key l x h with ⟨l1, l2, rfl, -, -⟩
  simp

theorem maxByKeyLast_isMax (key : α → Nat) (l : List α) (x : α)
    (h : maxByKeyLast key l = some x) : ∀ y ∈ l, key y ≤ key x := by
  rcases maxByKeyLast_lastMax key l x h with ⟨l1, l2, rfl, h1, h2⟩
  intro y hy
  rcases List.mem_append.1 hy with hy | hy
  · exact h1 y hy
  · rcases List.mem_cons.1 hy with rfl | hy
    · exact le_refl _
    · exact le_of_lt (h2 y hy)

/-- Membership in the `suitable_types` scan unfolds to: the type sits at that
index, its mask bit is set, and the usage defines that fitness for it. -/
theorem suitableTypes_mem {h : Heaps} {fitness : FitnessFn} {mask : Nat}
    {usage : UsageValue} {i : Nat} {mt : MemoryType} {f : Nat}
    (hmem : (i, mt, f) ∈ suitableTypes h fitness mask usage) :
    h.types[i]? = some mt ∧ mask.testBit i = true ∧
      fitness usage mt.properties = some f := by
  rcases List.mem_filterMap.1 hmem with ⟨p, hp, heq⟩
  rcases List.mem_filter.1 hp with ⟨henum, hbit⟩
  cases hf : fitness usage p.2.properties with
  | none => rw [hf] at heq; cases heq
  | some f0 =>
    rw [hf] at heq
    cases heq
    have : p.2 ∈ h.types ∧ h.types[p.1]? = some p.2 := by
      rw [List.mem_enum_iff_getElem?] at henum
      exact ⟨List.getElem?_mem henum, henum⟩
    exact ⟨this.2, hbit, hf⟩

/-- A candidate passing the capacity filter has an in-bounds backing heap
with `available > size + align`. -/
theorem capacityFilter_heap {h : Heaps} {size align : Nat} {p : Nat × MemoryType × Nat}
    (hc : capacityFilter h size align p = true) :
    ∃ heap, h.heaps[p.2.1.heapIndex]? = some heap ∧ size + align < heap.available := by
  unfold capacityFilter at hc
  rw [List.getD_eq_getElem?_getD] at hc
  cases hh : h.heaps[p.2.1.heapIndex]? with
  | none =>
    rw [hh] at hc
    simp [MemoryHeap.available] at hc
  | some heap =>
    rw [hh] at hc
    exact ⟨heap, rfl, by simpa using hc⟩

/-- Outcomes of `Heaps::allocate_from`: either the `HeapsExhausted` error
with the registry untouched, or a block whose `memory_index` is the
requested type index. -/
theorem allocateFrom_cases (h : Heaps) (i : Nat) (usage : UsageValue)
    (size align : Nat) (h' : Heaps) (res : Except MemoryError MemoryBlock)
    (hal : h.allocateFrom i usage size align = some (h', res)) :
    (res = .error .heapsExhausted ∧ h' = h) ∨
    (∃ blk, res = .ok blk ∧ blk.memoryIndex = i) := by
  unfold Heaps.allocateFrom at hal
  cases ht : h.types[i]? with
  | none => rw [ht] at hal; cases hal
  | some mt =>
    rw [ht] at hal
    dsimp only at hal
    cases hh : h.heaps[mt.heapIndex]? with
    | none => rw [hh] at hal; cases hal
    | some heap =>
      rw [hh] at hal
      dsimp only at hal
      by_cases hav : heap.available < size
      · rw [if_pos hav] at hal
        cases hal
        exact Or.inl ⟨rfl, rfl⟩
      · rw [if_neg hav] at hal
        cases halloc : mt.alloc usage size align with
        | none => rw [halloc] at hal; cases hal
        | some p =>
          rw [halloc] at hal
          cases hal
          exact Or.inr ⟨⟨p.1, i⟩, rfl, rfl⟩

/-- Unfolding of `Heaps::allocate` into scan, capacity filter, `max_by_key`
selection and delegation. -/
theorem allocate_unfold (h : Heaps) (fitness : FitnessFn) (mask : Nat)
    (usage : UsageValue) (size align : Nat) :
    h.allocate fitness mask usage size align =
      if (suitableTypes h fitness mask usage).isEmpty then
        some (h, .error (.noSuitableMemory mask usage))
      else
        match maxByKeyLast (fun p => p.2.2)
            ((suitableTypes h fitness mask usage).filter (capacityFilter h size align)) with
        | none => some (h, .error .heapsExhausted)
        | some p => h.allocateFrom p.1 usage size align := rfl

/-- Claim C4: `Heaps::allocate` returns `NoSuitableMemory(mask, usage)`
exactly when no memory type has both its mask bit set and a defined fitness
for the usage; it returns `HeapsExhausted` exactly when suitable types exist
but none of them passes the capacity filter `available() > size + align`;
and in both error cases the registry state is returned unchanged. -/
theorem heaps_allocate_errors (h : Heaps) (fitness : FitnessFn) (mask : Nat)
    (usage : UsageValue) (size align : Nat) :
    (h.allocate fitness mask usage size align =
        some (h, .error (.noSuitableMemory mask usage)) ↔
      suitableTypes h fitness mask usage = []) ∧
    (h.allocate fitness mask usage size align = some (h, .error .heapsExhausted) ↔
      suitableTypes h fitness mask usage ≠ [] ∧
        (suitableTypes h fitness mask usage).filter (capacityFilter h size align) = []) ∧
    (∀ h' e, h.allocate fitness mask usage size align = some (h', .error e) →
      h' = h) := by
  by_cases hs : (suitableTypes h fitness mask usage).isEmpty
  · have hsl : suitableTypes h fitness mask usage = [] := by simpa using hs
    rw [allocate_unfold, if_pos hs]
    simp [hsl]
  · have hne : suitableTypes h fitness mask usage ≠ [] := by simpa using hs
    rw [allocate_unfold, if_neg hs]
    cases hmax : maxByKeyLast (fun p => p.2.2)
        ((suitableTypes h fitness mask usage).filter (capacityFilter h size align)) with
    | none =>
      have hfe := (maxByKeyLast_eq_none _ _).1 hmax
      simp [hne, hfe]
    | some p =>
      obtain ⟨i, mt, f⟩ := p
      have hmem := maxByKeyLast_mem _ _ _ hmax
      have hfne : (suitableTypes h fitness mask usage).filter (capacityFilter h size align) ≠ [] := by
        intro hh
        rw [hh] at hmem
        cases hmem
      have hfilter := List.mem_filter.1 hmem
      have hsmem := suitableTypes_mem hfilter.1
      obtain ⟨heap, hheap, hav⟩ := capacityFilter_heap hfilter.2
      have hnav : ¬ heap.available < size := by omega
      dsimp only
      unfold Heaps.allocateFrom
      rw [hsmem.1]
      dsimp only
      rw [hheap]
      dsimp only
      rw [if_neg hnav]
      cases halloc : mt.alloc usage size align with
      | none => simp [hne, hfne]
      | some q => simp [hne, hfne]

/-- A plain memory type (no arena, no dynamic) over heap 0. -/
def mtPlain : MemoryType :=
  { heapIndex := 0, properties := 0, dedicated := ⟨0⟩, arena := none, dynamic := none }

/-- A registry with two identical memory types over the same heap, so any
constant fitness makes them tie. -/
def heapsTie : Heaps :=
  { types := [mtPlain, mtPlain], heaps := [⟨100, 0⟩] }

/-- A fitness function giving every type the same score for every usage. -/
def tieFitness : FitnessFn := fun _ _ => some 5

/-- Counterexample to C6 as stated: with two mask-permitted, capacity-passing
types of equal fitness, `Heaps::allocate` selects memory type index 1 — the
LAST candidate in scan order (Rust `max_by_key` keeps the last maximum) —
not the first-encountered (lowest) index 0 the claim describes. -/
theorem allocate_tie_selects_higher_index :
    suitableTypes heapsTie tieFitness 3 .data = [(0, mtPlain, 5), (1, mtPlain, 5)] ∧
    (suitableTypes heapsTie tieFitness 3 .data).filter (capacityFilter heapsTie 1 0) =
      [(0, mtPlain, 5), (1, mtPlain, 5)] ∧
    (heapsTie.allocate tieFitness 3 .data 1 0).map (fun p => p.2.map MemoryBlock.memoryIndex) =
      some (.ok 1) ∧
    (1 : Nat) ≠ 0 :=
  ⟨rfl, rfl, rfl, by decide⟩

/-- Claim C6 (amended): among the mask-permitted, fitness-defined types whose
heap passes the capacity filter, `Heaps::allocate` selects a type of maximum
fitness, and when several tie for the maximum the type encountered LAST in
scan order (highest index) is selected: every candidate before the selected
one scores at most its fitness and every candidate after it scores strictly
less. -/
theorem heaps_allocate_selects_last_max (h : Heaps) (fitness : FitnessFn)
    (mask : Nat) (usage : UsageValue) (size align : Nat) (h' : Heaps)
    (blk : MemoryBlock)
    (hal : h.allocate fitness mask usage size align = some (h', .ok blk)) :
    ∃ mt f l1 l2,
      (suitableTypes h fitness mask usage).filter (capacityFilter h size align) =
        l1 ++ (blk.memoryIndex, mt, f) :: l2 ∧
      (∀ y ∈ l1, y.2.2 ≤ f) ∧ (∀ y ∈ l2, y.2.2 < f) := by
  rw [allocate_unfold] at hal
  by_cases hs : (suitableTypes h fitness mask usage).isEmpty
  · rw [if_pos hs] at hal
    simp at hal
  · rw [if_neg hs] at hal
    cases hmax : maxByKeyLast (fun p => p.2.2)
        ((suitableTypes h fitness mask usage).filter (capacityFilter h size align)) with
    | none =>
      rw [hmax] at hal
      simp at hal
    | some p =>
      rw [hmax] at hal
      obtain ⟨i, mt, f⟩ := p
      rcases allocateFrom_cases h i usage size align h' (.ok blk) hal with
        ⟨hcontra, -⟩ | ⟨blk', hok, hidx⟩
      · cases hcontra
      · cases hok
        rcases maxByKeyLast_lastMax _ _ _ hmax with ⟨l1, l2, heq, h1, h2⟩
        refine ⟨mt, f, l1, l2, ?_, h1, h2⟩
        rw [hidx]
        exact heq

/-- Witness for the amended C6 on the tie example: the selected index 1 is
the last maximum of the candidate list. -/
theorem heaps_allocate_selects_last_max_witness :
    ∃ mt f l1 l2,
      (suitableTypes heapsTie tieFitness 3 .data).filter (capacityFilter heapsTie 1 0) =
        l1 ++ ((MemoryBlock.mk (.dedicated ⟨1⟩) 1).memoryIndex, mt, f) :: l2 ∧
      (∀ y ∈ l1, y.2.2 ≤ f) ∧ (∀ y ∈ l2, y.2.2 < f) :=
  heaps_allocate_selects_last_max heapsTie tieFitness 3 .data 1 0
    ⟨[mtPlain, ⟨0, 0, ⟨1⟩, none, none⟩], [⟨100, 1⟩]⟩ ⟨.dedicated ⟨1⟩, 1⟩ rfl

/-- The `used ≤ size` heap invariant, per index. -/
def usedLeSize (h : Heaps) : Prop :=
  ∀ (i : Nat) (heap : MemoryHeap), h.heaps[i]? = some heap → heap.used ≤ heap.size

/-- Exact effect of a successful `Heaps::allocate_from`: the selected type is
replaced by its post-alloc state and exactly the reserved byte count is added
to the backing heap's `used`; everything else is untouched. -/
theorem allocateFrom_spec (h : Heaps) (i : Nat) (mt : MemoryType)
    (usage : UsageValue) (size align : Nat) (b : BlockFlavor) (r : Nat)
    (mt' : MemoryType) (heap : MemoryHeap)
    (ht : h.types[i]? = some mt)
    (halloc : mt.alloc usage size align = some (b, r, mt'))
    (hh : h.heaps[mt.heapIndex]? = some heap)
    (hav : ¬ heap.available < size) :
    h.allocateFrom i usage size align =
      some ({ types := h.types.set i mt',
              heaps := h.heaps.set mt.heapIndex ⟨heap.size, heap.used + r⟩ },
            .ok ⟨b, i⟩) := by
  unfold Heaps.allocateFrom
  rw [ht]
  dsimp only
  rw [hh]
  dsimp only
  rw [if_neg hav, halloc]
  rfl

/-- Exact effect of `Heaps::free`: the owning type is replaced by its
post-free state and exactly the released byte count is subtracted from the
backing heap's `used`. -/
theorem free_spec (h : Heaps) (blk : MemoryBlock) (mt : MemoryType)
    (heap : MemoryHeap) (fr : Nat) (mt' : MemoryType)
    (ht : h.types[blk.memoryIndex]? = some mt)
    (hh : h.heaps[mt.heapIndex]? = some heap)
    (hf : mt.free blk.block = some (fr, mt')) :
    h.free blk =
      some { types := h.types.set blk.memoryIndex mt',
             heaps := h.heaps.set mt.heapIndex ⟨heap.size, heap.used - fr⟩ } := by
  unfold Heaps.free
  rw [ht]
  dsimp only
  rw [hh]
  dsimp only
  rw [hf]
  rfl

/-- Setting an in-bounds heap entry: the written index reads back the new
value and every other index is untouched. -/
theorem heaps_set_lookup (l : List MemoryHeap) (i : Nat) (a heap : MemoryHeap)
    (hi : l[i]? = some heap) :
    (l.set i a)[i]? = some a ∧ ∀ j : Nat, j ≠ i → (l.set i a)[j]? = l[j]? := by
  constructor
  · rw [List.getElem?_set_self']
    rw [hi]
    rfl
  · intro j hj
    exact List.getElem?_set_ne (fun he => hj he.symm)

/-- A registry with one arena-backed type (chunk 16, max allocation 8) over a
heap of size 10: the first arena allocation reserves a whole 16-byte chunk. -/
def heapsSmall : Heaps :=
  { types := [{ heapIndex := 0, properties := 1, dedicated := ⟨0⟩,
                arena := some ⟨⟨16, 8⟩, []⟩, dynamic := none }],
    heaps := [⟨10, 0⟩] }

/-- Counterexample to C2 as stated: on a heap of size 10, an Upload request
of one byte is routed to the arena, which reserves a whole 16-byte chunk;
`allocate_from` only checks `available() < size` before adding the reserved
bytes, so the heap's `used` counter climbs to 16 > 10 = size. -/
theorem heap_used_can_exceed_size :
    (heapsSmall.allocate tieFitness 1 .upload 1 0).map
        (fun p => (p.1.heaps.map MemoryHeap.used, p.1.heaps.map MemoryHeap.size)) =
      some ([16], [10]) ∧ (10 : Nat) < 16 :=
  ⟨rfl, by decide⟩

/-- Claim C2 (amended): the heap's `used` counter is adjusted only by
allocate and free — allocate adds exactly the bytes the sub-allocator
reserved and free subtracts exactly the bytes it released, on the type's
backing heap — and `used ≤ size` is preserved by every free and by every
allocation whose reserved byte count fits in the heap's remaining
`available()` (a chunk reservation larger than `available()` violates it). -/
theorem heaps_used_le_size_amended :
    (∀ (h : Heaps) (i : Nat) (mt : MemoryType) (usage : UsageValue)
        (size align : Nat) (b : BlockFlavor) (r : Nat) (mt' : MemoryType)
        (heap : MemoryHeap),
        h.types[i]? = some mt →
        mt.alloc usage size align = some (b, r, mt') →
        h.heaps[mt.heapIndex]? = some heap →
        ¬ heap.available < size →
        h.allocateFrom i usage size align =
          some ({ types := h.types.set i mt',
                  heaps := h.heaps.set mt.heapIndex ⟨heap.size, heap.used + r⟩ },
                .ok ⟨b, i⟩) ∧
          (usedLeSize h → r ≤ heap.available →
            usedLeSize { types := h.types.set i mt',
                         heaps := h.heaps.set mt.heapIndex ⟨heap.size, heap.used + r⟩ })) ∧
    (∀ (h : Heaps) (blk : MemoryBlock) (mt : MemoryType) (heap : MemoryHeap)
        (fr : Nat) (mt' : MemoryType),
        h.types[blk.memoryIndex]? = some mt →
        h.heaps[mt.heapIndex]? = some heap →
        mt.free blk.block = some (fr, mt') →
        h.free blk =
          some { types := h.types.set blk.memoryIndex mt',
                 heaps := h.heaps.set mt.heapIndex ⟨heap.size, heap.used - fr⟩ }) ∧
    (∀ (h : Heaps) (blk : MemoryBlock) (h' : Heaps),
        h.free blk = some h' → usedLeSize h → usedLeSize h') ∧
    (∀ (h : Heaps) (fitness : FitnessFn) (mask : Nat) (usage : UsageValue)
        (size align : Nat) (h' : Heaps) (res : Except MemoryError MemoryBlock),
        h.allocate fitness mask usage size align = some (h', res) →
        h' = h ∨ ∃ i, h.allocateFrom i usage size align = some (h', res)) := by
  refine ⟨?_, ?_, ?_, ?_⟩
  · intro h i mt usage size align b r mt' heap ht halloc hh hav
    refine ⟨allocateFrom_spec h i mt usage size align b r mt' heap ht halloc hh hav, ?_⟩
    intro hinv hr
    intro j heap' hj
    obtain ⟨hset, hother⟩ := heaps_set_lookup h.heaps mt.heapIndex
      ⟨heap.size, heap.used + r⟩ heap hh
    by_cases hji : j = mt.heapIndex
    · subst hji
      rw [hset] at hj
      cases hj
      have hle := hinv mt.heapIndex heap hh
      have hr' : r ≤ heap.size - heap.used := hr
      simp only
      omega
    · rw [hother j hji] at hj
      exact hinv j heap' hj
  · intro h blk mt heap fr mt' ht hh hf
    exact free_spec h blk mt heap fr mt' ht hh hf
  · intro h blk h' hfree hinv
    unfold Heaps.free at hfree
    cases ht : h.types[blk.memoryIndex]? with
    | none => rw [ht] at hfree; cases hfree
    | some mt =>
      rw [ht] at hfree
      dsimp only at hfree
      cases hh : h.heaps[mt.heapIndex]? with
      | none => rw [hh] at hfree; cases hfree
      | some heap =>
        rw [hh] at hfree
        dsimp only at hfree
        cases hf : mt.free blk.block with
        | none => rw [hf] at hfree; cases hfree
        | some p =>
          rw [hf] at hfree
          cases hfree
          intro j heap' hj
          obtain ⟨hset, hother⟩ := heaps_set_lookup h.heaps mt.heapIndex
            ⟨heap.size, heap.used - p.1⟩ heap hh
          by_cases hji : j = mt.heapIndex
          · subst hji
            rw [hset] at hj
            cases hj
            have hle := hinv mt.heapIndex heap hh
            simp only
            omega
          · rw [hother j hji] at hj
            exact hinv j heap' hj
  · intro h fitness mask usage size align h' res hal
    rw [allocate_unfold] at hal
    by_cases hs : (suitableTypes h fitness mask usage).isEmpty
    · rw [if_pos hs] at hal
      cases hal
      exact Or.inl rfl
    · rw [if_neg hs] at hal
      cases hmax : maxByKeyLast (fun p => p.2.2)
          ((suitableTypes h fitness mask usage).filter (capacityFilter h size align)) with
      | none =>
        rw [hmax] at hal
        cases hal
        exact Or.inl rfl
      | some p =>
        rw [hmax] at hal
        exact Or.inr ⟨p.1, hal⟩

/-- Witness for the amended C2: a dedicated allocation of 1 byte on the
two-type registry reserves exactly 1 byte, and the invariant is preserved. -/
theorem heaps_used_le_size_amended_witness :
    (heapsTie.allocateFrom 0 .data 1 0 =
      some ({ types := heapsTie.types.set 0 ⟨0, 0, ⟨1⟩, none, none⟩,
              heaps := heapsTie.heaps.set 0 ⟨100, 0 + 1⟩ },
            .ok ⟨.dedicated ⟨1⟩, 0⟩) ∧
      (usedLeSize heapsTie → 1 ≤ MemoryHeap.available ⟨100, 0⟩ →
        usedLeSize { types := heapsTie.types.set 0 ⟨0, 0, ⟨1⟩, none, none⟩,
                     heaps := heapsTie.heaps.set 0 ⟨100, 0 + 1⟩ })) :=
  heaps_used_le_size_amended.1 heapsTie 0 mtPlain .data 1 0 (.dedicated ⟨1⟩) 1
    ⟨0, 0, ⟨1⟩, none, none⟩ ⟨100, 0⟩ rfl rfl rfl (by decide)

/-- A present arena chunk slot holds at least one live block (freeing the
last live block reclaims the slot, and fresh chunks start with one). -/
def liveOkA (oc : Option ArenaChunk) : Bool :=
  match oc with
  | some c => c.live != 0
  | none => true

/-- A present dynamic chunk slot holds at least one live block. -/
def liveOkD (oc : Option DynChunk) : Bool :=
  match oc with
  | some c => c.live != 0
  | none => true

/-- Well-formed arena allocator state: every present chunk is live. -/
def arenaWFb (ar : ArenaAllocator) : Bool := ar.chunks.all liveOkA

/-- Well-formed dynamic allocator state: every present chunk is live. -/
def dynWFb (dy : DynamicAllocator) : Bool := dy.chunks.all liveOkD

/-- Well-formed memory type: its optional sub-allocators are well-formed. -/
def memoryTypeWFb (mt : MemoryType) : Bool :=
  (match mt.arena with | some ar => arenaWFb ar | none => true) &&
  (match mt.dynamic with | some dy => dynWFb dy | none => true)

/-- Well-formed registry: every type is well-formed. -/
def heapsWFb (h : Heaps) : Bool := h.types.all memoryTypeWFb

/-- Freeing an arena block straight after allocating it releases exactly the
byte count the allocation reserved (0 inside an existing chunk, `chunk_size`
for a fresh chunk that the free reclaims again). -/
theorem arena_free_alloc (ar : ArenaAllocator) (size align : Nat)
    (b : ArenaBlock) (r : Nat) (ar' : ArenaAllocator)
    (hwf : arenaWFb ar = true)
    (h : ar.alloc size align = some (b, r, ar')) :
    (ar'.free b).1 = r := by
  unfold ArenaAllocator.alloc at h
  cases hlast : ar.chunks.getLast? with
  | some oc =>
    cases oc with
    | some c =>
      rw [hlast] at h
      dsimp only at h
      by_cases hfit : alignUp c.offset align + size ≤ ar.config.chunkSize
      · rw [if_pos hfit] at h
        cases h
        have hlive : c.live ≠ 0 := by
          have hmem := List.mem_of_mem_getLast? hlast
          have := (List.all_eq_true.1 hwf) _ hmem
          simpa [liveOkA] using this
        have hlen : (ar.chunks.dropLast ++
            [some (ArenaChunk.mk (alignUp c.offset align + size) (c.live + 1))])[ar.chunks.length - 1]? =
            some (some ⟨alignUp c.offset align + size, c.live + 1⟩) := by
          have hd : ar.chunks.dropLast.length = ar.chunks.length - 1 := by simp
          rw [← hd]
          simp
        unfold ArenaAllocator.free
        dsimp only
        rw [hlen]
        dsimp only
        rw [if_neg (by omega)]
      · rw [if_neg hfit] at h
        by_cases hsz : size ≤ ar.config.chunkSize
        · rw [if_pos hsz] at h
          cases h
          unfold ArenaAllocator.free
          dsimp only
          rw [List.getElem?_append_right (Nat.le_refl _)]
          simp
        · rw [if_neg hsz] at h
          cases h
    | none =>
      rw [hlast] at h
      dsimp only at h
      by_cases hsz : size ≤ ar.config.chunkSize
      · rw [if_pos hsz] at h
        cases h
        unfold ArenaAllocator.free
        dsimp only
        rw [List.getElem?_append_right (Nat.le_refl _)]
        simp
      · rw [if_neg hsz] at h
        cases h
  | none =>
    rw [hlast] at h
    dsimp only at h
    by_cases hsz : size ≤ ar.config.chunkSize
    · rw [if_pos hsz] at h
      cases h
      unfold ArenaAllocator.free
      dsimp only
      rw [List.getElem?_append_right (Nat.le_refl _)]
      simp
    · rw [if_neg hsz] at h
      cases h

/-- First-fit characterization: a hit carves a range out of the chunk at the
returned index and bumps that chunk's live count; nothing else changes. -/
theorem dynFirstFit_spec (size align : Nat) (chunks : List (Option DynChunk))
    (i : Nat) (rg : Nat × Nat) (chunks' : List (Option DynChunk))
    (h : dynFirstFit size align chunks = some (i, rg, chunks')) :
    ∃ c free', chunks[i]? = some (some c) ∧
      carveRanges size align c.free = some (rg, free') ∧
      chunks' = chunks.set i (some ⟨free', c.live + 1⟩) := by
  induction chunks generalizing i rg chunks' with
  | nil => cases h
  | cons oc rest ih =>
    cases oc with
    | none =>
      replace h :
          (match dynFirstFit size align rest with
            | none => none
            | some (j, r, rest') => some (j + 1, r, none :: rest')) =
          some (i, rg, chunks') := h
      cases hrec : dynFirstFit size align rest with
      | none => rw [hrec] at h; cases h
      | some q =>
        obtain ⟨j, r0, rest0⟩ := q
        rw [hrec] at h
        cases h
        obtain ⟨c, free', hc, hcarve, hrest⟩ := ih j rg rest0 hrec
        exact ⟨c, free', by simpa using hc, hcarve, by rw [hrest]; rfl⟩
    | some c0 =>
      replace h :
          (match carveRanges size align c0.free with
            | some (r, free') => some (0, r, some (DynChunk.mk free' (c0.live + 1)) :: rest)
            | none =>
              match dynFirstFit size align rest with
              | none => none
              | some (j, r, rest') => some (j + 1, r, some c0 :: rest')) =
          some (i, rg, chunks') := h
      cases hcarve : carveRanges size align c0.free with
      | some q =>
        obtain ⟨r0, free0⟩ := q
        rw [hcarve] at h
        cases h
        exact ⟨c0, free0, by simp, hcarve, rfl⟩
      | none =>
        rw [hcarve] at h
        cases hrec : dynFirstFit size align rest with
        | none => rw [hrec] at h; cases h
        | some q =>
          obtain ⟨j, r0, rest0⟩ := q
          rw [hrec] at h
          cases h
          obtain ⟨c, free', hc, hcarve', hrest⟩ := ih j rg rest0 hrec
          exact ⟨c, free', by simpa using hc, hcarve', by rw [hrest]; rfl⟩

/-- Freeing a dynamic block straight after allocating it releases exactly the
byte count the allocation reserved. -/
theorem dyn_free_alloc (dy : DynamicAllocator) (size align : Nat)
    (b : DynamicBlock) (r : Nat) (dy' : DynamicAllocator)
    (hwf : dynWFb dy = true)
    (h : dy.alloc size align = some (b, r, dy')) :
    (dy'.free b).1 = r := by
  unfold DynamicAllocator.alloc at h
  cases hfit : dynFirstFit size align dy.chunks with
  | some q =>
    obtain ⟨i, rg, chunks'⟩ := q
    rw [hfit] at h
    cases h
    obtain ⟨c, free', hc, hcarve, hrest⟩ := dynFirstFit_spec size align dy.chunks i rg chunks' hfit
    have hlive : c.live ≠ 0 := by
      have hmem := List.getElem?_mem hc
      have := (List.all_eq_true.1 hwf) _ hmem
      simpa [liveOkD] using this
    have hset : chunks'[i]? = some (some ⟨free', c.live + 1⟩) := by
      rw [hrest, List.getElem?_set_self', hc]
      rfl
    unfold DynamicAllocator.free
    dsimp only
    rw [hset]
    dsimp only
    rw [if_neg (by omega)]
  | none =>
    rw [hfit] at h
    by_cases hsz : size ≤ dy.config.chunkSize
    · rw [if_pos hsz] at h
      cases h
      unfold DynamicAllocator.free
      dsimp only
      rw [List.getElem?_append_right (Nat.le_refl _)]
      simp
    · rw [if_neg hsz] at h
      cases h

/-- A successful `MemoryType::alloc` keeps the heap index and the presence of
the optional sub-allocators, and freeing the returned block through
`MemoryType::free` succeeds and releases exactly the reserved byte count. -/
theorem memoryType_alloc_free (mt : MemoryType) (usage : UsageValue)
    (size align : Nat) (b : BlockFlavor) (r : Nat) (mt' : MemoryType)
    (hwf : memoryTypeWFb mt = true)
    (h : mt.alloc usage size align = some (b, r, mt')) :
    mt'.heapIndex = mt.heapIndex ∧ mt'.arena.isSome = mt.arena.isSome ∧
    mt'.dynamic.isSome = mt.dynamic.isSome ∧
    ∃ mt'', mt'.free b = some (r, mt'') := by
  have har : ∀ ar, mt.arena = some ar → arenaWFb ar = true := by
    intro ar har
    have := hwf
    unfold memoryTypeWFb at this
    rw [har] at this
    rw [Bool.and_eq_true] at this
    exact this.1
  have hdy : ∀ dy, mt.dynamic = some dy → dynWFb dy = true := by
    intro dy hdy
    have := hwf
    unfold memoryTypeWFb at this
    rw [hdy] at this
    rw [Bool.and_eq_true] at this
    exact this.2
  cases usage with
  | upload =>
    cases harena : mt.arena with
    | none =>
      simp only [MemoryType.alloc, harena] at h
      cases h
      exact ⟨rfl, by simp [harena], rfl, _, rfl⟩
    | some ar =>
      simp only [MemoryType.alloc, harena] at h
      by_cases hle : size ≤ ar.maxAllocation
      · rw [if_pos hle] at h
        cases hall : ar.alloc size align with
        | none => rw [hall] at h; cases h
        | some p =>
          obtain ⟨ab, r0, ar'⟩ := p
          rw [hall] at h
          cases h
          have hfst := arena_free_alloc ar size align ab r0 ar' (har ar harena) hall
          refine ⟨rfl, by simp [harena], rfl, ?_⟩
          exact ⟨_, by rw [show ({ mt with arena := some ar' } : MemoryType).free (.arena ab) =
            some ((ar'.free ab).1, { mt with arena := some (ar'.free ab).2 }) from rfl, hfst]⟩
      · rw [if_neg hle] at h
        cases h
        exact ⟨rfl, by simp [harena], rfl, _, rfl⟩
  | download =>
    cases harena : mt.arena with
    | none =>
      simp only [MemoryType.alloc, harena] at h
      cases h
      exact ⟨rfl, by simp [harena], rfl, _, rfl⟩
    | some ar =>
      simp only [MemoryType.alloc, harena] at h
      by_cases hle : size ≤ ar.maxAllocation
      · rw [if_pos hle] at h
        cases hall : ar.alloc size align with
        | none => rw [hall] at h; cases h
        | some p =>
          obtain ⟨ab, r0, ar'⟩ := p
          rw [hall] at h
          cases h
          have hfst := arena_free_alloc ar size align ab r0 ar' (har ar harena) hall
          refine ⟨rfl, by simp [harena], rfl, ?_⟩
          exact ⟨_, by rw [show ({ mt with arena := some ar' } : MemoryType).free (.arena ab) =
            some ((ar'.free ab).1, { mt with arena := some (ar'.free ab).2 }) from rfl, hfst]⟩
      · rw [if_neg hle] at h
        cases h
        exact ⟨rfl, by simp [harena], rfl, _, rfl⟩
  | dynamic =>
    cases hdync : mt.dynamic with
    | none =>
      simp only [MemoryType.alloc, hdync] at h
      cases h
      exact ⟨rfl, rfl, by simp [hdync], _, rfl⟩
    | some dy =>
      simp only [MemoryType.alloc, hdync] at h
      by_cases hle : size ≤ dy.maxAllocation
      · rw [if_pos hle] at h
        cases hall : dy.alloc size align with
        | none => rw [hall] at h; cases h
        | some p =>
          obtain ⟨db, r0, dy'⟩ := p
          rw [hall] at h
          cases h
          have hfst := dyn_free_alloc dy size align db r0 dy' (hdy dy hdync) hall
          refine ⟨rfl, rfl, by simp [hdync], ?_⟩
          exact ⟨_, by rw [show ({ mt with dynamic := some dy' } : MemoryType).free (.dynamic db) =
            some ((dy'.free db).1, { mt with dynamic := some (dy'.free db).2 }) from rfl, hfst]⟩
      · rw [if_neg hle] at h
        cases h
        exact ⟨rfl, rfl, by simp [hdync], _, rfl⟩
  | data =>
    cases hdync : mt.dynamic with
    | none =>
      simp only [MemoryType.alloc, hdync] at h
      cases h
      exact ⟨rfl, rfl, by simp [hdync], _, rfl⟩
    | some dy =>
      simp only [MemoryType.alloc, hdync] at h
      by_cases hle : size ≤ dy.maxAllocation
      · rw [if_pos hle] at h
        cases hall : dy.alloc size align with
        | none => rw [hall] at h; cases h
        | some p =>
          obtain ⟨db, r0, dy'⟩ := p
          rw [hall] at h
          cases h
          have hfst := dyn_free_alloc dy size align db r0 dy' (hdy dy hdync) hall
          refine ⟨rfl, rfl, by simp [hdync], ?_⟩
          exact ⟨_, by rw [show ({ mt with dynamic := some dy' } : MemoryType).free (.dynamic db) =
            some ((dy'.free db).1, { mt with dynamic := some (dy'.free db).2 }) from rfl, hfst]⟩
      · rw [if_neg hle] at h
        cases h
        exact ⟨rfl, rfl, by simp [hdync], _, rfl⟩

/-- Inversion of a successful `Heaps::allocate_from`. -/
theorem allocateFrom_ok_inv (h : Heaps) (i : Nat) (usage : UsageValue)
    (size align : Nat) (h' : Heaps) (blk : MemoryBlock)
    (hal : h.allocateFrom i usage size align = some (h', .ok blk)) :
    ∃ mt heap bf r mt',
      h.types[i]? = some mt ∧ h.heaps[mt.heapIndex]? = some heap ∧
      ¬ heap.available < size ∧ mt.alloc usage size align = some (bf, r, mt') ∧
      blk = ⟨bf, i⟩ ∧
      h' = { types := h.types.set i mt',
             heaps := h.heaps.set mt.heapIndex ⟨heap.size, heap.used + r⟩ } := by
  unfold Heaps.allocateFrom at hal
  cases ht : h.types[i]? with
  | none => rw [ht] at hal; cases hal
  | some mt =>
    rw [ht] at hal
    dsimp only at hal
    cases hh : h.heaps[mt.heapIndex]? with
    | none => rw [hh] at hal; cases hal
    | some heap =>
      rw [hh] at hal
      dsimp only at hal
      by_cases hav : heap.available < size
      · rw [if_pos hav] at hal
        cases hal
      · rw [if_neg hav] at hal
        cases halloc : mt.alloc usage size align with
        | none => rw [halloc] at hal; cases hal
        | some p =>
          obtain ⟨bf, r, mt'⟩ := p
          rw [halloc] at hal
          cases hal
          exact ⟨mt, heap, bf, r, mt', by simp [ht], by simp [hh], hav, by simp [halloc], rfl, rfl⟩

/-- A successful `Heaps::allocate` is a successful `allocate_from` on the
selected type index. -/
theorem allocate_ok_allocateFrom (h : Heaps) (fitness : FitnessFn) (mask : Nat)
    (usage : UsageValue) (size align : Nat) (h' : Heaps) (blk : MemoryBlock)
    (hal : h.allocate fitness mask usage size align = some (h', .ok blk)) :
    ∃ i, h.allocateFrom i usage size align = some (h', .ok blk) := by
  rw [allocate_unfold] at hal
  by_cases hs : (suitableTypes h fitness mask usage).isEmpty
  · rw [if_pos hs] at hal
    simp at hal
  · rw [if_neg hs] at hal
    cases hmax : maxByKeyLast (fun p => p.2.2)
        ((suitableTypes h fitness mask usage).filter (capacityFilter h size align)) with
    | none =>
      rw [hmax] at hal
      simp at hal
    | some p =>
      rw [hmax] at hal
      exact ⟨p.1, hal⟩

/-- Claim C5: a successful `Heaps::allocate` immediately followed by
`Heaps::free` of the returned block restores every heap's `used` counter
exactly to its pre-allocation value (the released byte count equals the
reserved byte count). -/
theorem free_after_allocate_restores_used (h : Heaps) (fitness : FitnessFn)
    (mask : Nat) (usage : UsageValue) (size align : Nat) (h' : Heaps)
    (blk : MemoryBlock)
    (hwf : heapsWFb h = true)
    (hal : h.allocate fitness mask usage size align = some (h', .ok blk)) :
    ∃ h'', h'.free blk = some h'' ∧
      ∀ j : Nat, (h''.heaps[j]?).map MemoryHeap.used =
        (h.heaps[j]?).map MemoryHeap.used := by
  obtain ⟨i, haf⟩ := allocate_ok_allocateFrom h fitness mask usage size align h' blk hal
  obtain ⟨mt, heap, bf, r, mt', ht, hh, hav, halloc, hblk, hstate⟩ :=
    allocateFrom_ok_inv h i usage size align h' blk haf
  have hmtwf : memoryTypeWFb mt = true :=
    (List.all_eq_true.1 hwf) mt (List.getElem?_mem ht)
  obtain ⟨hheapIdx, -, -, mt'', hfree⟩ :=
    memoryType_alloc_free mt usage size align bf r mt' hmtwf halloc
  have htypes' : h'.types[blk.memoryIndex]? = some mt' := by
    rw [hstate, hblk]
    dsimp only
    rw [List.getElem?_set_self', ht]
    rfl
  have hheaps' : h'.heaps[mt'.heapIndex]? = some ⟨heap.size, heap.used + r⟩ := by
    rw [hstate, hheapIdx]
    dsimp only
    rw [List.getElem?_set_self', hh]
    rfl
  have hfreeblk : mt'.free blk.block = some (r, mt'') := by
    rw [hblk]
    exact hfree
  have hspec := free_spec h' blk mt' ⟨heap.size, heap.used + r⟩ r mt''
    htypes' hheaps' hfreeblk
  refine ⟨_, hspec, ?_⟩
  intro j
  by_cases hj : j = mt.heapIndex
  · subst hj
    have h1 : (h'.heaps.set mt'.heapIndex
        ⟨heap.size, heap.used + r - r⟩)[mt.heapIndex]? =
        some ⟨heap.size, heap.used + r - r⟩ := by
      rw [hheapIdx, List.getElem?_set_self']
      rw [show h'.heaps[mt.heapIndex]? = some ⟨heap.size, heap.used + r⟩ from
        hheapIdx ▸ hheaps']
      rfl
    dsimp only
    rw [h1, hh]
    simp
  · have h1 : (h'.heaps.set mt'.heapIndex ⟨heap.size, heap.used + r - r⟩)[j]? =
        h'.heaps[j]? :=
      List.getElem?_set_ne (by rw [hheapIdx]; exact fun he => hj he.symm)
    have h2 : h'.heaps[j]? = h.heaps[j]? := by
      rw [hstate]
      exact List.getElem?_set_ne (fun he => hj he.symm)
    dsimp only
    rw [h1, h2]

/-- Witness for C5: on the arena registry, allocating one Upload byte
reserves a 16-byte chunk and freeing the block reclaims it, restoring the
heap's `used` to 0. -/
theorem free_after_allocate_restores_used_witness :
    ∃ h'', (Heaps.free
        ⟨[⟨0, 1, ⟨0⟩, some ⟨⟨16, 8⟩, [some ⟨1, 1⟩]⟩, none⟩], [⟨10, 16⟩]⟩
        ⟨.arena ⟨0, 0, 1⟩, 0⟩) = some h'' ∧
      ∀ j : Nat, (h''.heaps[j]?).map MemoryHeap.used =
        (heapsSmall.heaps[j]?).map MemoryHeap.used :=
  free_after_allocate_restores_used heapsSmall tieFitness 1 .upload 1 0
    ⟨[⟨0, 1, ⟨0⟩, some ⟨⟨16, 8⟩, [some ⟨1, 1⟩]⟩, none⟩], [⟨10, 16⟩]⟩
    ⟨.arena ⟨0, 0, 1⟩, 0⟩ (by decide) rfl

/-- A block flavor is backed by the sub-allocators its owning type has:
arena-flavored blocks need the arena allocator present, dynamic-flavored
blocks the dynamic one (the `unwrap` calls in `MemoryType::free`). -/
def flavorFits (mt : MemoryType) : BlockFlavor → Bool
  | .arena _ => mt.arena.isSome
  | .dynamic _ => mt.dynamic.isSome
  | .dedicated _ => true

/-- Consistency of a memory block with a registry: its `memory_index` names
an existing type whose backing heap exists and whose optional sub-allocator
for the block's flavor is present. -/
def blockConsistent (h : Heaps) (blk : MemoryBlock) : Prop :=
  ∃ mt, h.types[blk.memoryIndex]? = some mt ∧ mt.heapIndex < h.heaps.length ∧
    flavorFits mt blk.block = true

/-- A successful `MemoryType::free` implies the flavor's allocator was
present (otherwise the unwrap would have panicked). -/
theorem memoryType_free_fits (mt : MemoryType) (b : BlockFlavor)
    (p : Nat × MemoryType) (h : mt.free b = some p) :
    flavorFits mt b = true := by
  cases b with
  | dedicated db => rfl
  | arena ab =>
    unfold MemoryType.free at h
    cases har : mt.arena with
    | none => rw [har] at h; cases h
    | some ar => simp [flavorFits, har]
  | dynamic db =>
    unfold MemoryType.free at h
    cases hdy : mt.dynamic with
    | none => rw [hdy] at h; cases h
    | some dy => simp [flavorFits, hdy]

/-- `MemoryType::free` keeps the heap index and the presence of the optional
sub-allocators. -/
theorem memoryType_free_preserves (mt : MemoryType) (b : BlockFlavor)
    (fr : Nat) (mt' : MemoryType) (h : mt.free b = some (fr, mt')) :
    mt'.heapIndex = mt.heapIndex ∧ mt'.arena.isSome = mt.arena.isSome ∧
    mt'.dynamic.isSome = mt.dynamic.isSome := by
  cases b with
  | dedicated db =>
    unfold MemoryType.free at h
    cases h
    exact ⟨rfl, rfl, rfl⟩
  | arena ab =>
    unfold MemoryType.free at h
    cases har : mt.arena with
    | none => rw [har] at h; cases h
    | some ar =>
      rw [har] at h
      dsimp only at h
      cases h
      exact ⟨rfl, by simp [har], rfl⟩
  | dynamic db =>
    unfold MemoryType.free at h
    cases hdy : mt.dynamic with
    | none => rw [hdy] at h; cases h
    | some dy =>
      rw [hdy] at h
      dsimp only at h
      cases h
      exact ⟨rfl, rfl, by simp [hdy]⟩

/-- `MemoryType::alloc` keeps the heap index and the presence of the
optional sub-allocators. -/
theorem memoryType_alloc_preserves (mt : MemoryType) (usage : UsageValue)
    (size align : Nat) (b : BlockFlavor) (r : Nat) (mt' : MemoryType)
    (h : mt.alloc usage size align = some (b, r, mt')) :
    mt'.heapIndex = mt.heapIndex ∧ mt'.arena.isSome = mt.arena.isSome ∧
    mt'.dynamic.isSome = mt.dynamic.isSome := by
  cases usage with
  | upload =>
    cases harena : mt.arena with
    | none =>
      simp only [MemoryType.alloc, harena] at h
      cases h
      exact ⟨rfl, by simp [harena], rfl⟩
    | some ar =>
      simp only [MemoryType.alloc, harena] at h
      by_cases hle : size ≤ ar.maxAllocation
      · rw [if_pos hle] at h
        cases hall : ar.alloc size align with
        | none => rw [hall] at h; cases h
        | some p =>
          rw [hall] at h
          cases h
          exact ⟨rfl, by simp [harena], rfl⟩
      · rw [if_neg hle] at h
        cases h
        exact ⟨rfl, by simp [harena], rfl⟩
  | download =>
    cases harena : mt.arena with
    | none =>
      simp only [MemoryType.alloc, harena] at h
      cases h
      exact ⟨rfl, by simp [harena], rfl⟩
    | some ar =>
      simp only [MemoryType.alloc, harena] at h
      by_cases hle : size ≤ ar.maxAllocation
      · rw [if_pos hle] at h
        cases hall : ar.alloc size align with
        | none => rw [hall] at h; cases h
        | some p =>
          rw [hall] at h
          cases h
          exact ⟨rfl, by simp [harena], rfl⟩
      · rw [if_neg hle] at h
        cases h
        exact ⟨rfl, by simp [harena], rfl⟩
  | dynamic =>
    cases hdync : mt.dynamic with
    | none =>
      simp only [MemoryType.alloc, hdync] at h
      cases h
      exact ⟨rfl, rfl, by simp [hdync]⟩
    | some dy =>
      simp only [MemoryType.alloc, hdync] at h
      by_cases hle : size ≤ dy.maxAllocation
      · rw [if_pos hle] at h
        cases hall : dy.alloc size align with
        | none => rw [hall] at h; cases h
        | some p =>
          rw [hall] at h
          cases h
          exact ⟨rfl, rfl, by simp [hdync]⟩
      · rw [if_neg hle] at h
        cases h
        exact ⟨rfl, rfl, by simp [hdync]⟩
  | data =>
    cases hdync : mt.dynamic with
    | none =>
      simp only [MemoryType.alloc, hdync] at h
      cases h
      exact ⟨rfl, rfl, by simp [hdync]⟩
    | some dy =>
      simp only [MemoryType.alloc, hdync] at h
      by_cases hle : size ≤ dy.maxAllocation
      · rw [if_pos hle] at h
        cases hall : dy.alloc size align with
        | none => rw [hall] at h; cases h
        | some p =>
          rw [hall] at h
          cases h
          exact ⟨rfl, rfl, by simp [hdync]⟩
      · rw [if_neg hle] at h
        cases h
        exact ⟨rfl, rfl, by simp [hdync]⟩

/-- Claim C10: a block returned by `Heaps::allocate` is flavor-consistent
with its registry, flavor-consistent blocks can always be freed (no panic in
the dispatch and no failing unwrap in `MemoryType::free`), and consistency
of outstanding blocks is stable under further `free` and `allocate_from`
calls on the same registry. -/
theorem heaps_free_no_panic :
    (∀ (h : Heaps) (fitness : FitnessFn) (mask : Nat) (usage : UsageValue)
        (size align : Nat) (h' : Heaps) (blk : MemoryBlock),
        heapsWFb h = true →
        h.allocate fitness mask usage size align = some (h', .ok blk) →
        blockConsistent h' blk ∧ ∃ h'', h'.free blk = some h'') ∧
    (∀ (h : Heaps) (blk : MemoryBlock),
        blockConsistent h blk → ∃ h', h.free blk = some h') ∧
    (∀ (h : Heaps) (blk blk2 : MemoryBlock) (h' : Heaps),
        blockConsistent h blk → h.free blk2 = some h' → blockConsistent h' blk) ∧
    (∀ (h : Heaps) (blk : MemoryBlock) (i : Nat) (usage : UsageValue)
        (size align : Nat) (h' : Heaps) (res : Except MemoryError MemoryBlock),
        blockConsistent h blk →
        h.allocateFrom i usage size align = some (h', res) →
        blockConsistent h' blk) := by
  have hfree_of_consistent : ∀ (h : Heaps) (blk : MemoryBlock),
      blockConsistent h blk → ∃ h', h.free blk = some h' := by
    intro h blk ⟨mt, ht, hhi, hfits⟩
    obtain ⟨heap, hh⟩ : ∃ heap, h.heaps[mt.heapIndex]? = some heap := by
      cases hx : h.heaps[mt.heapIndex]? with
      | none =>
        rw [List.getElem?_eq_none_iff] at hx
        omega
      | some heap => exact ⟨heap, rfl⟩
    obtain ⟨p, hf⟩ : ∃ p, mt.free blk.block = some p := by
      cases hb : blk.block with
      | dedicated db => exact ⟨_, rfl⟩
      | arena ab =>
        rw [hb] at hfits
        cases har : mt.arena with
        | none => rw [flavorFits, har] at hfits; cases hfits
        | some ar =>
          exact ⟨((ar.free ab).1, { mt with arena := some (ar.free ab).2 }), by
            unfold MemoryType.free
            rw [har]⟩
      | dynamic db =>
        rw [hb] at hfits
        cases hdy : mt.dynamic with
        | none => rw [flavorFits, hdy] at hfits; cases hfits
        | some dy =>
          exact ⟨((dy.free db).1, { mt with dynamic := some (dy.free db).2 }), by
            unfold MemoryType.free
            rw [hdy]⟩
    exact ⟨_, free_spec h blk mt heap p.1 p.2 ht hh (by rw [hf])⟩
  refine ⟨?_, hfree_of_consistent, ?_, ?_⟩
  · intro h fitness mask usage size align h' blk hwf hal
    obtain ⟨i, haf⟩ := allocate_ok_allocateFrom h fitness mask usage size align h' blk hal
    obtain ⟨mt, heap, bf, r, mt', ht, hh, hav, halloc, hblk, hstate⟩ :=
      allocateFrom_ok_inv h i usage size align h' blk haf
    have hmtwf : memoryTypeWFb mt = true :=
      (List.all_eq_true.1 hwf) mt (List.getElem?_mem ht)
    obtain ⟨hheapIdx, -, -, mt'', hfree⟩ :=
      memoryType_alloc_free mt usage size align bf r mt' hmtwf halloc
    have hcons : blockConsistent h' blk := by
      refine ⟨mt', ?_, ?_, ?_⟩
      · rw [hstate, hblk]
        dsimp only
        rw [List.getElem?_set_self', ht]
        rfl
      · rw [hstate, hheapIdx]
        have : mt.heapIndex < h.heaps.length := (List.getElem?_eq_some.1 hh).1
        simpa using this
      · rw [hblk]
        exact memoryType_free_fits mt' bf (r, mt'') hfree
    exact ⟨hcons, hfree_of_consistent h' blk hcons⟩
  · intro h blk blk2 h' ⟨mt, ht, hhi, hfits⟩ hfree
    unfold Heaps.free at hfree
    cases ht2 : h.types[blk2.memoryIndex]? with
    | none => rw [ht2] at hfree; cases hfree
    | some mt2 =>
      rw [ht2] at hfree
      dsimp only at hfree
      cases hh2 : h.heaps[mt2.heapIndex]? with
      | none => rw [hh2] at hfree; cases hfree
      | some heap2 =>
        rw [hh2] at hfree
        dsimp only at hfree
        cases hf2 : mt2.free blk2.block with
        | none => rw [hf2] at hfree; cases hfree
        | some p =>
          rw [hf2] at hfree
          cases hfree
          by_cases hji : blk.memoryIndex = blk2.memoryIndex
          · obtain ⟨hhi2, hpa, hpd⟩ := memoryType_free_preserves mt2 blk2.block p.1 p.2 hf2
            rw [hji] at ht
            rw [ht2] at ht
            cases ht
            refine ⟨p.2, ?_, ?_, ?_⟩
            · dsimp only
              rw [hji, List.getElem?_set_self', ht2]
              rfl
            · dsimp only
              rw [hhi2]
              simpa using hhi
            · cases hb : blk.block with
              | dedicated db => rfl
              | arena ab =>
                show p.2.arena.isSome = true
                rw [hpa]
                rw [hb] at hfits
                exact hfits
              | dynamic db =>
                show p.2.dynamic.isSome = true
                rw [hpd]
                rw [hb] at hfits
                exact hfits
          · refine ⟨mt, ?_, by simpa using hhi, hfits⟩
            dsimp only
            rw [List.getElem?_set_ne (fun he => hji he.symm)]
            exact ht
  · intro h blk i usage size align h' res ⟨mt, ht, hhi, hfits⟩ haf
    unfold Heaps.allocateFrom at haf
    cases ht2 : h.types[i]? with
    | none => rw [ht2] at haf; cases haf
    | some mt2 =>
      rw [ht2] at haf
      dsimp only at haf
      cases hh2 : h.heaps[mt2.heapIndex]? with
      | none => rw [hh2] at haf; cases haf
      | some heap2 =>
        rw [hh2] at haf
        dsimp only at haf
        by_cases hav : heap2.available < size
        · rw [if_pos hav] at haf
          cases haf
          exact ⟨mt, ht, hhi, hfits⟩
        · rw [if_neg hav] at haf
          cases halloc : mt2.alloc usage size align with
          | none => rw [halloc] at haf; cases haf
          | some q =>
            obtain ⟨bf, r, mt2'⟩ := q
            rw [halloc] at haf
            cases haf
            by_cases hji : blk.memoryIndex = i
            · rw [hji] at ht
              rw [ht2] at ht
              cases ht
              obtain ⟨hhi2, hpa, hpd⟩ :=
                memoryType_alloc_preserves mt usage size align bf r mt2' halloc
              refine ⟨mt2', ?_, ?_, ?_⟩
              · dsimp only
                rw [hji, List.getElem?_set_self', ht2]
                rfl
              · dsimp only
                rw [hhi2]
                simpa using hhi
              · cases hb : blk.block with
                | dedicated db => rfl
                | arena ab =>
                  show mt2'.arena.isSome = true
                  rw [hpa]
                  rw [hb] at hfits
                  exact hfits
                | dynamic db =>
                  show mt2'.dynamic.isSome = true
                  rw [hpd]
                  rw [hb] at hfits
                  exact hfits
            · refine ⟨mt, ?_, by simpa using hhi, hfits⟩
              dsimp only
              rw [List.getElem?_set_ne (fun he => hji he.symm)]
              exact ht

/-- Witness for C10: the arena block allocated on the small registry is
consistent and can be freed without panicking. -/
theorem heaps_free_no_panic_witness :
    blockConsistent
        ⟨[⟨0, 1, ⟨0⟩, some ⟨⟨16, 8⟩, [some ⟨1, 1⟩]⟩, none⟩], [⟨10, 16⟩]⟩
        ⟨.arena ⟨0, 0, 1⟩, 0⟩ ∧
      ∃ h'', (Heaps.free
          ⟨[⟨0, 1, ⟨0⟩, some ⟨⟨16, 8⟩, [some ⟨1, 1⟩]⟩, none⟩], [⟨10, 16⟩]⟩
          ⟨.arena ⟨0, 0, 1⟩, 0⟩) = some h'' :=
  heaps_free_no_panic.1 heapsSmall tieFitness 1 .upload 1 0
    ⟨[⟨0, 1, ⟨0⟩, some ⟨⟨16, 8⟩, [some ⟨1, 1⟩]⟩, none⟩], [⟨10, 16⟩]⟩
    ⟨.arena ⟨0, 0, 1⟩, 0⟩ (by decide) rfl

/-- Claim C8 (code bug in dispose coverage): after a Data allocation served
by the Dedicated allocator, the registry holds one outstanding block, yet
`Heaps::dispose` fires no fatal assertion — `MemoryType::dispose` only
disposes the arena allocator, so outstanding Dedicated (and Dynamic) blocks
slip through, contradicting the doc comment on `Heaps::dispose` ("Will panic
if memory instances are left allocated").  An outstanding arena block, by
contrast, does trip the fatal arena assertion. -/
theorem dispose_misses_outstanding_blocks :
    (heapsTie.allocate tieFitness 3 .data 1 0).map
        (fun p => (p.1.disposeFatal, p.1.outstanding)) = some (false, 1) ∧
    (heapsSmall.allocate tieFitness 1 .upload 1 0).map
        (fun p => (p.1.disposeFatal, p.1.outstanding)) = some (true, 1) :=
  ⟨rfl, rfl⟩

theorem updAt_length (l : List α) (i : Nat) (f : α → α) :
    (updAt l i f).length = l.length := by
  unfold updAt
  cases h : l[i]? <;> simp

theorem updAt_getElem?_self (l : List α) (i : Nat) (f : α → α) (a : α)
    (h : l[i]? = some a) : (updAt l i f)[i]? = some (f a) := by
  unfold updAt
  rw [h]
  dsimp only
  rw [List.getElem?_set_self', h]
  rfl

theorem updAt_getElem?_ne (l : List α) (i j : Nat) (f : α → α) (h : j ≠ i) :
    (updAt l i f)[j]? = l[j]? := by
  unfold updAt
  cases hx : l[i]? with
  | none => rfl
  | some a => exact List.getElem?_set_ne (fun he => h he.symm)

theorem updAt_getD_self (l : List α) (i : Nat) (f : α → α) (d : α)
    (h : i < l.length) : (updAt l i f).getD i d = f (l.getD i d) := by
  have h1 := List.getElem?_eq_getElem h
  rw [List.getD_eq_getElem?_getD, updAt_getElem?_self l i f _ h1,
    List.getD_eq_getElem?_getD, h1]
  rfl

theorem updAt_getD_ne (l : List α) (i j : Nat) (f : α → α) (d : α)
    (h : j ≠ i) : (updAt l i f).getD j d = l.getD j d := by
  rw [List.getD_eq_getElem?_getD, updAt_getElem?_ne l i j f h,
    List.getD_eq_getElem?_getD]

theorem updAt_mem (l : List α) (i : Nat) (f : α → α) (a : α)
    (h : a ∈ updAt l i f) : a ∈ l ∨ ∃ b, l[i]? = some b ∧ a = f b := by
  unfold updAt at h
  cases hx : l[i]? with
  | none => rw [hx] at h; exact Or.inl h
  | some b =>
    rw [hx] at h
    rcases List.mem_or_eq_of_mem_set h with h1 | h1
    · exact Or.inl h1
    · exact Or.inr ⟨b, rfl, h1⟩

theorem set_getD_self (l : List α) (i : Nat) (x d : α) (h : i < l.length) :
    (l.set i x).getD i d = x := by
  rw [List.getD_eq_getElem?_getD, List.getElem?_set_self',
    List.getElem?_eq_getElem h]
  rfl

theorem set_getD_ne (l : List α) (i j : Nat) (x d : α) (h : j ≠ i) :
    (l.set i x).getD j d = l.getD j d := by
  rw [List.getD_eq_getElem?_getD, List.getElem?_set_ne (fun he => h he.symm),
    List.getD_eq_getElem?_getD]

/-- `retireCond` only reads the queue states and the batch's stamp. -/
theorem retireCond_congr (s s' : TrackerState) (q : Nat) (bt bt' : Batch)
    (hq : s'.queues.getD q emptyQueue = s.queues.getD q emptyQueue)
    (hst : bt'.stamp = bt.stamp)
    (h : retireCond s q bt) : retireCond s' q bt' := by
  intro sub hsub hle
  rw [hq] at hsub
  rw [hst] at hle
  exact h sub hsub hle

/-- The inductive invariant of the reclamation protocol. -/
structure TrackInv (s : TrackerState) : Prop where
  subEpoch : ∀ qs ∈ s.queues, ∀ sub ∈ qs.subs, sub.epoch ≤ qs.epoch
  stampLen : ∀ bt ∈ s.batches, bt.stamp.length = s.queues.length
  holdLen : ∀ bt ∈ s.batches, bt.holders.length = s.queues.length
  stampLe : ∀ bt ∈ s.batches, ∀ q : Nat, q < s.queues.length →
    bt.stamp.getD q 0 ≤ (s.queues.getD q emptyQueue).epoch
  holdCond : ∀ bt ∈ s.batches, ∀ q : Nat, q < s.queues.length →
    bt.holders.getD q true = false → retireCond s q bt
  destHold : ∀ bt ∈ s.batches, bt.destroyed = true → ∀ x ∈ bt.holders, x = false

theorem trackInv_submit (s : TrackerState) (q0 : Nat) (hinv : TrackInv s) :
    TrackInv (submitOn s q0) := by
  refine ⟨?_, ?_, ?_, ?_, ?_, ?_⟩ <;> simp only [submitOn]
  · intro qs hqs sub hsub
    rcases updAt_mem _ _ _ _ hqs with hold | ⟨qs0, hqs0, rfl⟩
    · exact hinv.subEpoch qs hold sub hsub
    · rcases List.mem_cons.1 hsub with rfl | hsub0
      · exact Nat.le_refl _
      · exact Nat.le_trans
          (hinv.subEpoch qs0 (List.getElem?_mem hqs0) sub hsub0) (Nat.le_succ _)
  · intro bt hbt
    rw [updAt_length]
    exact hinv.stampLen bt hbt
  · intro bt hbt
    rw [updAt_length]
    exact hinv.holdLen bt hbt
  · intro bt hbt q hq
    rw [updAt_length] at hq
    by_cases hqq : q = q0
    · subst hqq
      rw [updAt_getD_self _ _ _ _ hq]
      exact Nat.le_trans (hinv.stampLe bt hbt q hq) (Nat.le_succ _)
    · rw [updAt_getD_ne _ _ _ _ _ hqq]
      exact hinv.stampLe bt hbt q hq
  · intro bt hbt q hq hfalse
    rw [updAt_length] at hq
    have hcond := hinv.holdCond bt hbt q hq hfalse
    by_cases hqq : q = q0
    · subst hqq
      intro sub hsub hle
      rw [updAt_getD_self _ _ _ _ hq] at hsub
      rcases List.mem_cons.1 hsub with rfl | hsub0
      · have hle' : (s.queues.getD q emptyQueue).epoch + 1 ≤ bt.stamp.getD q 0 := hle
        exact absurd hle' (by have := hinv.stampLe bt hbt q hq; omega)
      · exact hcond sub hsub0 hle
    · intro sub hsub hle
      rw [updAt_getD_ne _ _ _ _ _ hqq] at hsub
      exact hcond sub hsub hle
  · intro bt hbt
    exact hinv.destHold bt hbt

theorem trackInv_signal (s : TrackerState) (q0 i0 : Nat) (hinv : TrackInv s) :
    TrackInv (signalOn s q0 i0) := by
  refine ⟨?_, ?_, ?_, ?_, ?_, ?_⟩ <;> simp only [signalOn]
  · intro qs hqs sub hsub
    rcases updAt_mem _ _ _ _ hqs with hold | ⟨qs0, hqs0, rfl⟩
    · exact hinv.subEpoch qs hold sub hsub
    · rcases updAt_mem _ _ _ _ hsub with holds | ⟨sub0, hsub0, rfl⟩
      · exact hinv.subEpoch qs0 (List.getElem?_mem hqs0) sub holds
      · exact hinv.subEpoch qs0 (List.getElem?_mem hqs0) sub0 (List.getElem?_mem hsub0)
  · intro bt hbt
    rw [updAt_length]
    exact hinv.stampLen bt hbt
  · intro bt hbt
    rw [updAt_length]
    exact hinv.holdLen bt hbt
  · intro bt hbt q hq
    rw [updAt_length] at hq
    by_cases hqq : q = q0
    · subst hqq
      rw [updAt_getD_self _ _ _ _ hq]
      exact hinv.stampLe bt hbt q hq
    · rw [updAt_getD_ne _ _ _ _ _ hqq]
      exact hinv.stampLe bt hbt q hq
  · intro bt hbt q hq hfalse
    rw [updAt_length] at hq
    have hcond := hinv.holdCond bt hbt q hq hfalse
    by_cases hqq : q = q0
    · subst hqq
      intro sub hsub hle
      rw [updAt_getD_self _ _ _ _ hq] at hsub
      rcases updAt_mem _ _ _ _ hsub with holds | ⟨sub0, hsub0, rfl⟩
      · exact hcond sub holds hle
      · rfl
    · intro sub hsub hle
      rw [updAt_getD_ne _ _ _ _ _ hqq] at hsub
      exact hcond sub hsub hle
  · intro bt hbt
    exact hinv.destHold bt hbt

theorem trackInv_sweep (s : TrackerState) (hinv : TrackInv s) :
    TrackInv (sweepNew s) := by
  have hmapD : ∀ q : Nat, q < s.queues.length →
      (s.queues.map QueueState.epoch).getD q 0 =
        (s.queues.getD q emptyQueue).epoch := by
    intro q hq
    rw [List.getD_eq_getElem?_getD, List.getElem?_map,
      List.getElem?_eq_getElem hq, List.getD_eq_getElem?_getD,
      List.getElem?_eq_getElem hq]
    rfl
  have htrueD : ∀ q : Nat, q < s.queues.length →
      (s.queues.map fun _ => true).getD q true = true := by
    intro q hq
    rw [List.getD_eq_getElem?_getD, List.getElem?_map,
      List.getElem?_eq_getElem hq]
    rfl
  refine ⟨?_, ?_, ?_, ?_, ?_, ?_⟩ <;> simp only [sweepNew]
  · exact hinv.subEpoch
  · intro bt hbt
    rcases List.mem_append.1 hbt with hold | hnew
    · exact hinv.stampLen bt hold
    · rw [List.mem_singleton.1 hnew]
      simp
  · intro bt hbt
    rcases List.mem_append.1 hbt with hold | hnew
    · exact hinv.holdLen bt hold
    · rw [List.mem_singleton.1 hnew]
      simp
  · intro bt hbt q hq
    rcases List.mem_append.1 hbt with hold | hnew
    · exact hinv.stampLe bt hold q hq
    · rw [List.mem_singleton.1 hnew]
      rw [show (Batch.mk (s.queues.map QueueState.epoch) (s.queues.map fun _ => true) false).stamp =
        s.queues.map QueueState.epoch from rfl, hmapD q hq]
  · intro bt hbt q hq hfalse
    rcases List.mem_append.1 hbt with hold | hnew
    · exact retireCond_congr s _ q bt bt rfl rfl (hinv.holdCond bt hold q hq hfalse)
    · rw [List.mem_singleton.1 hnew] at hfalse
      rw [show (Batch.mk (s.queues.map QueueState.epoch) (s.queues.map fun _ => true) false).holders =
        s.queues.map (fun _ => true) from rfl, htrueD q hq] at hfalse
      cases hfalse
  · intro bt hbt hdest
    rcases List.mem_append.1 hbt with hold | hnew
    · exact hinv.destHold bt hold hdest
    · rw [List.mem_singleton.1 hnew] at hdest
      cases hdest

theorem trackInv_retire (s : TrackerState) (q0 b0 : Nat) (bt0 : Batch)
    (hb : s.batches[b0]? = some bt0) (hq0 : q0 < s.queues.length)
    (hcond : retireCond s q0 bt0) (hinv : TrackInv s) :
    TrackInv (retireOn s q0 b0) := by
  have hbt0mem := List.getElem?_mem hb
  refine ⟨?_, ?_, ?_, ?_, ?_, ?_⟩ <;> simp only [retireOn]
  · exact hinv.subEpoch
  · intro bt hbt
    rcases updAt_mem _ _ _ _ hbt with hold | ⟨bt1, hbt1, rfl⟩
    · exact hinv.stampLen bt hold
    · exact hinv.stampLen bt1 (List.getElem?_mem hbt1)
  · intro bt hbt
    rcases updAt_mem _ _ _ _ hbt with hold | ⟨bt1, hbt1, rfl⟩
    · exact hinv.holdLen bt hold
    · rw [show (Batch.mk bt1.stamp (bt1.holders.set q0 false) bt1.destroyed).holders =
        bt1.holders.set q0 false from rfl, List.length_set]
      exact hinv.holdLen bt1 (List.getElem?_mem hbt1)
  · intro bt hbt q hq
    rcases updAt_mem _ _ _ _ hbt with hold | ⟨bt1, hbt1, rfl⟩
    · exact hinv.stampLe bt hold q hq
    · exact hinv.stampLe bt1 (List.getElem?_mem hbt1) q hq
  · intro bt hbt q hq hfalse
    rcases updAt_mem _ _ _ _ hbt with hold | ⟨bt1, hbt1, rfl⟩
    · exact retireCond_congr s _ q bt bt rfl rfl (hinv.holdCond bt hold q hq hfalse)
    · have hbt1eq : bt1 = bt0 := by
        rw [hb] at hbt1
        cases hbt1
        rfl
      subst hbt1eq
      by_cases hqq : q = q0
      · subst hqq
        exact retireCond_congr s _ q bt1 _ rfl rfl hcond
      · rw [show (Batch.mk bt1.stamp (bt1.holders.set q0 false) bt1.destroyed).holders =
          bt1.holders.set q0 false from rfl, set_getD_ne _ _ _ _ _ hqq] at hfalse
        exact retireCond_congr s _ q bt1 _ rfl rfl
          (hinv.holdCond bt1 hbt0mem q hq hfalse)
  · intro bt hbt hdest x hx
    rcases updAt_mem _ _ _ _ hbt with hold | ⟨bt1, hbt1, rfl⟩
    · exact hinv.destHold bt hold hdest x hx
    · rcases List.mem_or_eq_of_mem_set hx with hx1 | rfl
      · exact hinv.destHold bt1 (List.getElem?_mem hbt1) hdest x hx1
      · rfl

theorem trackInv_destroy (s : TrackerState) (b0 : Nat) (bt0 : Batch)
    (hb : s.batches[b0]? = some bt0) (hall : ∀ x ∈ bt0.holders, x = false)
    (hinv : TrackInv s) : TrackInv (destroyOn s b0) := by
  refine ⟨?_, ?_, ?_, ?_, ?_, ?_⟩ <;> simp only [destroyOn]
  · exact hinv.subEpoch
  · intro bt hbt
    rcases updAt_mem _ _ _ _ hbt with hold | ⟨bt1, hbt1, rfl⟩
    · exact hinv.stampLen bt hold
    · exact hinv.stampLen bt1 (List.getElem?_mem hbt1)
  · intro bt hbt
    rcases updAt_mem _ _ _ _ hbt with hold | ⟨bt1, hbt1, rfl⟩
    · exact hinv.holdLen bt hold
    · exact hinv.holdLen bt1 (List.getElem?_mem hbt1)
  · intro bt hbt q hq
    rcases updAt_mem _ _ _ _ hbt with hold | ⟨bt1, hbt1, rfl⟩
    · exact hinv.stampLe bt hold q hq
    · exact hinv.stampLe bt1 (List.getElem?_mem hbt1) q hq
  · intro bt hbt q hq hfalse
    rcases updAt_mem _ _ _ _ hbt with hold | ⟨bt1, hbt1, rfl⟩
    · exact retireCond_congr s _ q bt bt rfl rfl (hinv.holdCond bt hold q hq hfalse)
    · exact retireCond_congr s _ q bt1 _ rfl rfl
        (hinv.holdCond bt1 (List.getElem?_mem hbt1) q hq hfalse)
  · intro bt hbt hdest x hx
    rcases updAt_mem _ _ _ _ hbt with hold | ⟨bt1, hbt1, rfl⟩
    · exact hinv.destHold bt hold hdest x hx
    · have hbt1eq : bt1 = bt0 := by
        rw [hb] at hbt1
        cases hbt1
        rfl
      subst hbt1eq
      exact hall x hx

/-- Every reachable state of the reclamation protocol satisfies the
inductive invariant. -/
theorem trackInv_reachable (n : Nat) (s : TrackerState)
    (h : TrackReachable n s) : TrackInv s := by
  induction h with
  | init =>
    refine ⟨?_, ?_, ?_, ?_, ?_, ?_⟩ <;>
      simp only [initTracker] <;>
      intro x hx <;>
      first
      | (rw [List.eq_of_mem_replicate hx]; intro sub hsub; cases hsub)
      | cases hx
  | step hr hstep ih =>
    cases hstep with
    | submit q => exact trackInv_submit _ q ih
    | signal q i => exact trackInv_signal _ q i ih
    | sweep => exact trackInv_sweep _ ih
    | retire q b bt hb hq hcond => exact trackInv_retire _ q b bt hb hq hcond ih
    | destroy b bt hb hall => exact trackInv_destroy _ b bt hb hall ih

/-- Claim C1: in every reachable state of the reclamation protocol, a batch
that has been physically destroyed satisfies, for every queue, that every
submission at or before the epoch stamped on the batch for that queue has a
fence observed Ready — destruction never precedes the last possible use by
the device. -/
theorem graveyard_destroy_after_ready (n : Nat) (s : TrackerState)
    (hreach : TrackReachable n s) (bt : Batch) (hbt : bt ∈ s.batches)
    (hdest : bt.destroyed = true) :
    ∀ q : Nat, q < s.queues.length →
      ∀ sub ∈ (s.queues.getD q emptyQueue).subs,
        sub.epoch ≤ bt.stamp.getD q 0 → sub.ready = true := by
  have hinv := trackInv_reachable n s hreach
  intro q hq sub hsub hle
  have hlen := hinv.holdLen bt hbt
  have hqlt : q < bt.holders.length := by rw [hlen]; exact hq
  have hmem : bt.holders.getD q true ∈ bt.holders := by
    rw [List.getD_eq_getElem?_getD, List.getElem?_eq_getElem hqlt]
    exact List.getElem_mem hqlt
  have hfalse : bt.holders.getD q true = false :=
    hinv.destHold bt hbt hdest _ hmem
  exact hinv.holdCond bt hbt q hq hfalse sub hsub hle

/-- Witness for C1 on a concrete one-queue trace: submit (epoch 1), sweep
(batch stamped at epoch 1), observe the fence Ready, retire the queue's
copy, destroy the batch; the theorem then yields that the stamped
submission's fence is Ready. -/
theorem graveyard_destroy_after_ready_witness :
    (Submission.mk 1 true).ready = true :=
  graveyard_destroy_after_ready 1
    (destroyOn (retireOn (signalOn (sweepNew (submitOn (initTracker 1) 0)) 0 0) 0 0) 0)
    (TrackReachable.step
      (TrackReachable.step
        (TrackReachable.step
          (TrackReachable.step
            (TrackReachable.step TrackReachable.init
              (TrackStep.submit (initTracker 1) 0))
            (TrackStep.sweep (submitOn (initTracker 1) 0)))
          (TrackStep.signal (sweepNew (submitOn (initTracker 1) 0)) 0 0))
        (TrackStep.retire (signalOn (sweepNew (submitOn (initTracker 1) 0)) 0 0)
          0 0 ⟨[1], [true], false⟩ (by decide) (by decide) (by decide)))
      (TrackStep.destroy
        (retireOn (signalOn (sweepNew (submitOn (initTracker 1) 0)) 0 0) 0 0)
        0 ⟨[1], [false], false⟩ (by decide) (by decide)))
    ⟨[1], [false], true⟩ (by decide) rfl 0 (by decide) ⟨1, true⟩ (by decide)
    (by decide)

end Rendy
